import Mathlib

set_option maxRecDepth 100000

/-!
Verification development for the decoder core of the `lu-zero/opus` Opus
decoder (Rust).  The definitions below are a shallow embedding of the
relevant source functions; machine integers are modelled as `Nat`/`Int`
with explicit masks where the source masks, and every operation that can
panic in the source (`unwrap`, checked subtraction underflow, division by
zero, slice indexing out of bounds) is modelled with `Option`, returning
`none` exactly when the source would panic.
-/

namespace Opus

/-! ## Integer helpers (src/maths.rs) -/

/-- Fuel-based helper for `ilog` (structural recursion so that concrete
values reduce inside the kernel); the fuel `x` itself always suffices. -/
def ilogAux : Nat → Nat → Nat
  | 0, _ => 0
  | fuel + 1, x => if x = 0 then 0 else ilogAux fuel (x / 2) + 1

/-- `celt_ilog2` from src/maths.rs: `bitwidth - leading_zeros`, i.e. `0` for
`0` and `floor(log2 x) + 1` otherwise.  The entropy decoder calls this
helper under the method name `ilog()`; the result is independent of the
machine word width for the word sizes in use. -/
def ilog (x : Nat) : Nat := ilogAux x x

/-! ## Bit readers (src/entropy.rs)

`UnpaddedBitReadBE` reads bits most-significant-first from the start of the
buffer; its `fill` pads with zero bits once the byte cursor runs past the
end of the buffer.  `ReverseBitReadLE` reads bits least-significant-first
starting from the last byte of the buffer walking backwards, with zero bits
once the whole buffer has been consumed (`fill` saturates `start` at 0, and
`can_refill` stops the cursor at `buffer.len()`). -/

/-- Bit `i` of the forward big-endian bit stream over `buf`
(each entry a byte value `< 256`); `0` past the end of the buffer. -/
def byteBitBE (buf : List Nat) (i : Nat) : Nat :=
  (buf.getD (i / 8) 0 >>> (7 - i % 8)) % 2

/-- Read `n` bits of the forward big-endian stream starting at bit `pos`
(first bit read is the most significant of the result). -/
def getBitsBE (buf : List Nat) (pos : Nat) : Nat → Nat
  | 0 => 0
  | n + 1 => getBitsBE buf pos n * 2 + byteBitBE buf (pos + n)

/-- Bit `i` of the reverse little-endian raw-bits stream over `buf`: bit
`i % 8` of byte `len - 1 - i / 8`; `0` once the whole buffer is consumed. -/
def rawBitLE (buf : List Nat) (i : Nat) : Nat :=
  if i / 8 < buf.length then
    (buf.getD (buf.length - 1 - i / 8) 0 >>> (i % 8)) % 2
  else 0

/-- Read `n` bits of the reverse stream starting at raw position `pos`
(first bit read is the least significant of the result). -/
def getBitsRev (buf : List Nat) (pos : Nat) : Nat → Nat
  | 0 => 0
  | n + 1 => getBitsRev buf pos n + rawBitLE buf (pos + n) <<< n

/-! ## Range decoder state (src/entropy.rs, `RangeDecoder`) -/

def SYM_BITS : Nat := 8
def SYM_MAX : Nat := (1 <<< SYM_BITS) - 1
def CODE_BITS : Nat := 32
def CODE_TOP : Nat := 1 <<< (CODE_BITS - 1)
def CODE_BOT : Nat := CODE_TOP >>> SYM_BITS
def UNI_BITS : Nat := 8

/-- The decoder state: the byte buffer, the forward (arithmetic) bit
cursor, the reverse (raw-bits) bit cursor, and the three integers of the
range coder.  `size_in_bits` of the source is `8 * buf.length`. -/
structure RangeDecoder where
  buf : List Nat
  bitpos : Nat
  revpos : Nat
  value : Nat
  range : Nat
  total : Nat
deriving Repr, DecidableEq

def RangeDecoder.sizeInBits (rd : RangeDecoder) : Nat := 8 * rd.buf.length

/-- One iteration of the `normalize` loop body:
`value = ((value << 8) | (byte ^ 0xFF)) & (CODE_TOP - 1)`, `range <<= 8`,
`total += 8`, reading the next 8 bits of the forward stream. -/
def normalizeStep (rd : RangeDecoder) : RangeDecoder :=
  let v := getBitsBE rd.buf rd.bitpos SYM_BITS ^^^ SYM_MAX
  { rd with
    bitpos := rd.bitpos + SYM_BITS
    value := ((rd.value <<< SYM_BITS) ||| v) &&& (CODE_TOP - 1)
    range := rd.range <<< SYM_BITS
    total := rd.total + SYM_BITS }

/-- The `while range <= CODE_BOT` loop, with explicit fuel.  From any state
with `range ≥ 1` the source loop runs at most three iterations (each
multiplies `range` by 256 and `256^3 > CODE_BOT`), so fuel 3 makes
`normalize` equal to the source loop on every state with `range ≥ 1`;
from `range = 0` the source loop diverges and is never invoked. -/
def normalizeAux : Nat → RangeDecoder → RangeDecoder
  | 0, rd => rd
  | n + 1, rd => if rd.range ≤ CODE_BOT then normalizeAux n (normalizeStep rd) else rd

def normalize (rd : RangeDecoder) : RangeDecoder := normalizeAux 3 rd

/-- The state literal built by `RangeDecoder::new` before the final
`normalize` call: `value = 127 - (top 7 bits of byte 0)`, `range = 128`,
`total = SYM_BITS + 1`. -/
def rangeDecoderInit (buf : List Nat) : RangeDecoder :=
  { buf := buf
    bitpos := 7
    revpos := 0
    value := 127 - getBitsBE buf 0 7
    range := 128
    total := SYM_BITS + 1 }

/-- `RangeDecoder::new`. -/
def rangeDecoderNew (buf : List Nat) : RangeDecoder :=
  normalize (rangeDecoderInit buf)

/-- `RangeDecoder::update`.  `none` models the panics of the source: the
`usize` subtractions `total - high`, `value - s` and `range - s`, the
`high - low` subtraction, and the `assert_ne!(range, 0)`. -/
def update (rd : RangeDecoder) (scale low high total : Nat) :
    Option RangeDecoder :=
  if total < high then none else
  let s := scale * (total - high)
  if rd.value < s then none else
  if low ≠ 0 then
    if high < low then none else
    let range := scale * (high - low)
    if range = 0 then none else
    some (normalize { rd with value := rd.value - s, range := range })
  else
    if rd.range < s then none else
    let range := rd.range - s
    if range = 0 then none else
    some (normalize { rd with value := rd.value - s, range := range })

/-- `RangeDecoder::get_scale_symbol`: `scale = range / total`,
`k = total - min(value / scale + 1, total)`.  `none` models the division
by zero panics when `total = 0` or `scale = 0`. -/
def getScaleSymbol (rd : RangeDecoder) (total : Nat) : Option (Nat × Nat) :=
  if total = 0 then none else
  let scale := rd.range / total
  if scale = 0 then none else
  some (scale, total - min (rd.value / scale + 1) total)

/-- `RangeDecoder::decode_logp`.  Total: no panics are possible (the
source's `logp` arguments are all far below the word width). -/
def decodeLogp (rd : RangeDecoder) (logp : Nat) : Bool × RangeDecoder :=
  let scale := rd.range >>> logp
  if rd.value < scale then
    (true, normalize { rd with range := scale })
  else
    (false, normalize { rd with range := rd.range - scale, value := rd.value - scale })

/-- `dist.iter().position(p)`: index of the first element satisfying `p`. -/
def findFirst (p : Nat → Bool) : List Nat → Option Nat
  | [] => none
  | x :: xs => if p x then some 0 else (findFirst p xs).map (· + 1)

/-- The ICDF context `{ total, dist }` of src/entropy.rs. -/
structure ICDFContext where
  total : Nat
  dist : List Nat
deriving Repr, DecidableEq

/-- `RangeDecoder::decode_icdf`.  `none` models the `unwrap` panic when no
element of `dist` exceeds the symbol, and the panics modelled by
`getScaleSymbol` and `update`. -/
def decodeIcdf (rd : RangeDecoder) (icdf : ICDFContext) :
    Option (Nat × RangeDecoder) := do
  let (scale, sym) ← getScaleSymbol rd icdf.total
  let k ← findFirst (fun v => sym < v) icdf.dist
  let high := icdf.dist.getD k 0
  let low := if 0 < k then icdf.dist.getD (k - 1) 0 else 0
  let rd' ← update rd scale low high icdf.total
  some (k, rd')

/-- `RangeDecoder::tell`: `total - ilog range`. -/
def RangeDecoder.tell (rd : RangeDecoder) : Nat := rd.total - ilog rd.range

/-- `RangeDecoder::available`: `size_in_bits - tell()`. -/
def RangeDecoder.available (rd : RangeDecoder) : Nat :=
  rd.sizeInBits - rd.tell

/-- `CeltOnly::rawbits`: read `len` bits from the reverse reader; the
reverse cursor advances unconditionally and never consults the forward
(arithmetic) cursor. -/
def rawbits (rd : RangeDecoder) (len : Nat) : Nat × RangeDecoder :=
  (getBitsRev rd.buf rd.revpos len, { rd with revpos := rd.revpos + len })

/-- `CeltOnly::decode_uniform`.  `none` models the `len - 1` underflow
panic when `len = 0` and the panics inside `getScaleSymbol`/`update`. -/
def decodeUniform (rd : RangeDecoder) (len : Nat) :
    Option (Nat × RangeDecoder) := do
  if len = 0 then none else
  let bits := ilog (len - 1)
  let total := if UNI_BITS < bits then ((len - 1) >>> (bits - UNI_BITS)) + 1 else len
  let (scale, k) ← getScaleSymbol rd total
  let rd' ← update rd scale k (k + 1) total
  if UNI_BITS < bits then
    let (raw, rd'') := rawbits rd' (bits - UNI_BITS)
    some ((k <<< (bits - UNI_BITS)) ||| raw, rd'')
  else
    some (k, rd')

/-- The `while symbol > 1 && center >= low + 2 * symbol` loop of
`decode_laplace`, acting on `(value, low, symbol)`.  Each iteration grows
`low` by at least 2, so fuel `center + 1` always suffices; `none` on fuel
exhaustion is unreachable from the call site. -/
def laplaceLoop (center decay : Nat) :
    Nat → Int × Nat × Nat → Option (Int × Nat × Nat)
  | 0, _ => none
  | fuel + 1, (value, low, symbol) =>
    if 1 < symbol ∧ low + 2 * symbol ≤ center then
      let symbol2 := symbol * 2
      let low' := low + symbol2
      let symbol' := (((symbol2 - 2) * decay) >>> 15) + 1
      laplaceLoop center decay fuel (value + 1, low', symbol')
    else
      some (value, low, symbol)

/-- `CeltOnly::decode_laplace`.  `decay` is always non-negative in the
source (the coarse-energy tables), hence modelled as `Nat`; `none` models
the `usize` underflow panics `32768 - 32 - symbol` and `16384 - decay`,
the division by zero when `scale = 0`, and the panics inside `update`. -/
def decodeLaplace (rd : RangeDecoder) (symbol : Nat) (decay : Nat) :
    Option (Int × RangeDecoder) := do
  let scale := rd.range >>> 15
  if scale = 0 then none else
  let center0 := rd.value / scale + 1
  let center := (1 <<< 15) - min center0 (1 <<< 15)
  if symbol ≤ center then
    if 32768 - 32 < symbol then none else
    if 16384 < decay then none else
    let symbol1 := 1 + (((32768 - 32 - symbol) * (16384 - decay)) >>> 15)
    let (value, low, symbol2) ← laplaceLoop center decay (center + 1) (1, symbol, symbol1)
    let (value, low) :=
      if symbol2 ≤ 1 then
        let dist := (center - low) >>> 1
        (value + (dist : Int), low + 2 * dist)
      else (value, low)
    let (value, low) :=
      if center < low + symbol2 then (value * (-1), low)
      else (value, low + symbol2)
    let rd' ← update rd scale low (min 32768 (low + symbol2)) 32768
    some (value, rd')
  else
    let rd' ← update rd scale 0 (min 32768 symbol) 32768
    some ((0 : Int), rd')

/-- The range-coder state invariant (spec §3): `CODE_BOT < range ≤ CODE_TOP`
and `value < range`. -/
def RangeDecoder.Inv (rd : RangeDecoder) : Prop :=
  CODE_BOT < rd.range ∧ rd.range ≤ CODE_TOP ∧ rd.value < rd.range

instance (rd : RangeDecoder) : Decidable rd.Inv := by
  unfold RangeDecoder.Inv; infer_instance

/-! ## SILK flag parsing and errors (src/silk.rs, `Silk::decode`) -/

/-- The error kinds of the `av-codec` crate as used by this repository
(spec §6): the decoder itself returns `InvalidData` and
`Unsupported(reason)`. -/
inductive Error where
  | invalidData
  | configurationIncomplete
  | configurationInvalid
  | unsupported (reason : String)
  | moreDataNeeded
deriving Repr, DecidableEq

/-- Read `n` one-bit `decode_logp(1)` flags in sequence (the VAD flag loop
inside `Silk::decode`'s helper `lp`). -/
def decodeLogpFlags (rd : RangeDecoder) : Nat → List Bool × RangeDecoder
  | 0 => ([], rd)
  | n + 1 =>
    let (b, rd1) := decodeLogp rd 1
    let (bs, rd2) := decodeLogpFlags rd1 n
    (b :: bs, rd2)

/-- The helper `lp` of `Silk::decode`: one VAD flag per frame, then one
LBRR flag; a set LBRR flag fails with `Error::Unsupported("LBRR frames")`. -/
def silkLpFlags (rd : RangeDecoder) (frames : Nat) :
    Except Error (List Bool × RangeDecoder) :=
  let (vad, rd1) := decodeLogpFlags rd frames
  let (lbrr, rd2) := decodeLogp rd1 1
  if lbrr then Except.error (Error.unsupported "LBRR frames")
  else Except.ok (vad, rd2)

/-- The flag prelude of `Silk::decode`: mid-channel flags, then (for a
stereo packet) side-channel flags. -/
def silkDecodeFlags (rd : RangeDecoder) (frames : Nat) (stereo : Bool) :
    Except Error ((List Bool × List Bool) × RangeDecoder) := do
  let (midVad, rd1) ← silkLpFlags rd frames
  if stereo then
    let (sideVad, rd2) ← silkLpFlags rd1 frames
    return ((midVad, sideVad), rd2)
  else
    return ((midVad, []), rd1)

/-! ## SILK excitation pulse counts (src/silk.rs, `parse_excitation`) -/

/-- The `PULSE_COUNT` ICDF tables (11 contexts, total 256 each). -/
def PULSE_COUNT : List ICDFContext :=
  [ ⟨256, [131, 205, 230, 238, 241, 244, 245, 246, 247, 248, 249, 250, 251,
           252, 253, 254, 255, 256]⟩,
    ⟨256, [58, 151, 211, 234, 241, 244, 245, 246, 247, 248, 249, 250, 251,
           252, 253, 254, 255, 256]⟩,
    ⟨256, [43, 94, 140, 173, 197, 213, 224, 232, 238, 241, 244, 247, 249,
           250, 251, 253, 254, 256]⟩,
    ⟨256, [17, 69, 140, 197, 228, 240, 245, 246, 247, 248, 249, 250, 251,
           252, 253, 254, 255, 256]⟩,
    ⟨256, [6, 27, 68, 121, 170, 205, 226, 237, 243, 246, 248, 250, 251,
           252, 253, 254, 255, 256]⟩,
    ⟨256, [7, 21, 43, 71, 100, 128, 153, 173, 190, 203, 214, 223, 230, 235,
           239, 243, 246, 256]⟩,
    ⟨256, [2, 7, 21, 50, 92, 138, 179, 210, 229, 240, 246, 249, 251, 252,
           253, 254, 255, 256]⟩,
    ⟨256, [1, 3, 7, 17, 36, 65, 100, 137, 171, 199, 219, 233, 241, 246,
           250, 252, 254, 256]⟩,
    ⟨256, [1, 3, 5, 10, 19, 33, 53, 77, 104, 132, 158, 181, 201, 216, 227,
           235, 241, 256]⟩,
    ⟨256, [1, 2, 3, 9, 36, 94, 150, 189, 214, 228, 238, 244, 247, 250, 252,
           253, 254, 256]⟩,
    ⟨256, [2, 3, 9, 36, 94, 150, 189, 214, 228, 238, 244, 247, 250, 252,
           253, 254, 256, 256]⟩ ]

/-- The overflow chain of `parse_excitation`'s pulse-count loop:
`while p == 17 && { l += 1; l } != 10 { p = decode_icdf(PULSE_COUNT[9]) }`
followed by `if l == 10 { p = decode_icdf(PULSE_COUNT[10]) }`.  The counter
`l` is incremented only while `p == 17`, so fuel 10 covers every run. -/
def pulseCountChain : Nat → RangeDecoder → Nat → Nat →
    Option (Nat × Nat × RangeDecoder)
  | 0, _, _, _ => none
  | fuel + 1, rd, p, l =>
    if p = 17 then
      if l + 1 ≠ 10 then do
        let (p1, rd1) ← decodeIcdf rd (PULSE_COUNT.getD 9 ⟨0, []⟩)
        pulseCountChain fuel rd1 p1 (l + 1)
      else do
        let (p1, rd1) ← decodeIcdf rd (PULSE_COUNT.getD 10 ⟨0, []⟩)
        some (p1, 10, rd1)
    else some (p, l, rd)

/-- One `(pc, lsb)` element of `parse_excitation`'s first loop: draw a
pulse count from `PULSE_COUNT[ratelevel]`, then follow the `p == 17`
overflow chain.  Returns `(pulse count, lsb count, state)`. -/
def silkPulseCount (rd : RangeDecoder) (ratelevel : Nat) :
    Option (Nat × Nat × RangeDecoder) := do
  let ctx ← PULSE_COUNT[ratelevel]?
  let (p, rd1) ← decodeIcdf rd ctx
  if p = 17 then pulseCountChain 10 rd1 p 0
  else some (p, 0, rd1)

/-! ## SILK LSF stage-2 recomposition (src/silk.rs, `parse_lpc`) -/

/-- Rust's `as i16` narrowing cast on an `i32` value: two's-complement
wrap into `[-32768, 32767]`. -/
def wrapI16 (x : Int) : Int :=
  (x + 32768) % 65536 - 32768

/-- One element of the NLSF recomposition in `parse_lpc`:
`nlsf = ((c as i32) << 7) + ((r as i32) << 14) / (w as i32)` followed by
`nlsf.max(0).min(1 << 15) as i16`.  The shifts are exact multiplications at
these widths, `/` is Rust's truncating `i32` division (`Int.tdiv`), which
panics on a zero divisor (`none`), and the final `as i16` cast wraps the
upper clamp bound `1 << 15 = 32768` to `-32768`. -/
def nlsfStep2Elem (r c w : Int) : Option Int :=
  if w = 0 then none
  else some (wrapI16 (min (max (c * 128 + Int.tdiv (r * 16384) w) 0) 32768))

/-- The spec's wording of the same step (§4.2.4 item 5):
`clamp((codebook[i] << 7) + ((res[i] << 14) / weight_table[i]), 0, 32767)`.
Kept separate for comparison against the source's `nlsfStep2Elem`. -/
def nlsfStep2ElemSpec (r c w : Int) : Int :=
  min (max (c * 128 + Int.tdiv (r * 16384) w) 0) 32767

/-- The full recomposition map of `parse_lpc`: residuals (in codebook
order) zipped with the stage-1 codebook entries and the weight table. -/
def recomposeNlsfs (residuals codebooks weights : List Int) : List (Option Int) :=
  List.zipWith3 nlsfStep2Elem residuals codebooks weights

/-! ## SILK output history discipline (src/silk.rs, `SilkFrame::parse`) -/

def LPC_HISTORY : Nat := 322

/-- Overwrite `l[start .. start + vals.length)` with `vals` (the net
effect of the per-subframe synthesis writes, which cover exactly
`output[LPC_HISTORY .. LPC_HISTORY + f_size)`, lines 2520–2541). -/
def writeAt {α : Type} (l : List α) (start : Nat) (vals : List α) : List α :=
  l.take start ++ vals ++ l.drop (start + vals.length)

/-- The sliding shift at the end of `SilkFrame::parse` (lines 2548–2555):
`for i in 0..LPC_HISTORY { buf[i] = buf[i + f_size] }`.  Each read index
`i + f_size` is at least the write index `i`, so the sequential loop equals
this parallel form. -/
def silkHistorySlide {α : Type} (l : List α) (fsize : Nat) : List α :=
  (l.drop fsize).take LPC_HISTORY ++ l.drop LPC_HISTORY

/-- Net effect of one successful `SilkFrame::parse` on the `output`
buffer (identically on `lpc_history`): the synthesis writes the `f_size`
new samples `synth` into the upper window starting at `LPC_HISTORY`, and
the buffer is then slid left by `f_size`.  No other write to the buffer
occurs in `parse` (the re-whitening step only reads it). -/
def silkParseOutputEffect {α : Type} (out : List α) (fsize : Nat)
    (synth : List α) : List α :=
  silkHistorySlide (writeAt out LPC_HISTORY synth) fsize

/-! ## CELT PVQ tables and `cwrsi` (src/celt/decoder.rs) -/

/-- The packed `PVQ_U` table (1272 entries): row `n` of the `U(n,k)`
triangle starts at flat offset `PVQ_U_ROW[n]`, rows overlapping so that
`pvq_u_row(a)[b] = PVQ_U[PVQ_U_ROW[a] + b]`. -/
def PVQ_U : List Nat :=
  [1, 0, 0, 0, 0, 0, 0, 0, 0, 0, 0, 0, 0, 0, 0, 0, 0, 0, 0, 0, 0, 0, 0, 0, 0,
   0, 0, 0, 0, 0, 0, 0, 0, 0, 0, 0, 0, 0, 0, 0, 0, 0, 0, 0, 0, 0, 0, 0, 0, 0,
   0, 0, 0, 0, 0, 0, 0, 0, 0, 0, 0, 0, 0, 0, 0, 0, 0, 0, 0, 0, 0, 0, 0, 0, 0,
   0, 0, 0, 0, 0, 0, 0, 0, 0, 0, 0, 0, 0, 0, 0, 0, 0, 0, 0, 0, 0, 0, 0, 0, 0,
   0, 0, 0, 0, 0, 0, 0, 0, 0, 0, 0, 0, 0, 0, 0, 0, 0, 0, 0, 0, 0, 0, 0, 0, 0,
   0, 0, 0, 0, 0, 0, 0, 0, 0, 0, 0, 0, 0, 0, 0, 0, 0, 0, 0, 0, 0, 0, 0, 0, 0,
   0, 0, 0, 0, 0, 0, 0, 0, 0, 0, 0, 0, 0, 0, 0, 0, 0, 0, 0, 0, 0, 0, 0, 0, 0,
   0, 0, 1, 1, 1, 1, 1, 1, 1, 1, 1, 1, 1, 1, 1, 1, 1, 1, 1, 1, 1, 1, 1, 1, 1,
   1, 1, 1, 1, 1, 1, 1, 1, 1, 1, 1, 1, 1, 1, 1, 1, 1, 1, 1, 1, 1, 1, 1, 1, 1,
   1, 1, 1, 1, 1, 1, 1, 1, 1, 1, 1, 1, 1, 1, 1, 1, 1, 1, 1, 1, 1, 1, 1, 1, 1,
   1, 1, 1, 1, 1, 1, 1, 1, 1, 1, 1, 1, 1, 1, 1, 1, 1, 1, 1, 1, 1, 1, 1, 1, 1,
   1, 1, 1, 1, 1, 1, 1, 1, 1, 1, 1, 1, 1, 1, 1, 1, 1, 1, 1, 1, 1, 1, 1, 1, 1,
   1, 1, 1, 1, 1, 1, 1, 1, 1, 1, 1, 1, 1, 1, 1, 1, 1, 1, 1, 1, 1, 1, 1, 1, 1,
   1, 1, 1, 1, 1, 1, 1, 1, 1, 1, 1, 1, 1, 1, 1, 1, 1, 1, 1, 1, 1, 1, 1, 1, 1,
   1, 1, 1, 3, 5, 7, 9, 11, 13, 15, 17, 19, 21, 23, 25, 27, 29, 31, 33, 35,
   37, 39, 41, 43, 45, 47, 49, 51, 53, 55, 57, 59, 61, 63, 65, 67, 69, 71, 73,
   75, 77, 79, 81, 83, 85, 87, 89, 91, 93, 95, 97, 99, 101, 103, 105, 107,
   109, 111, 113, 115, 117, 119, 121, 123, 125, 127, 129, 131, 133, 135, 137,
   139, 141, 143, 145, 147, 149, 151, 153, 155, 157, 159, 161, 163, 165, 167,
   169, 171, 173, 175, 177, 179, 181, 183, 185, 187, 189, 191, 193, 195, 197,
   199, 201, 203, 205, 207, 209, 211, 213, 215, 217, 219, 221, 223, 225, 227,
   229, 231, 233, 235, 237, 239, 241, 243, 245, 247, 249, 251, 253, 255, 257,
   259, 261, 263, 265, 267, 269, 271, 273, 275, 277, 279, 281, 283, 285, 287,
   289, 291, 293, 295, 297, 299, 301, 303, 305, 307, 309, 311, 313, 315, 317,
   319, 321, 323, 325, 327, 329, 331, 333, 335, 337, 339, 341, 343, 345, 347,
   349, 351, 13, 25, 41, 61, 85, 113, 145, 181, 221, 265, 313, 365, 421, 481,
   545, 613, 685, 761, 841, 925, 1013, 1105, 1201, 1301, 1405, 1513, 1625,
   1741, 1861, 1985, 2113, 2245, 2381, 2521, 2665, 2813, 2965, 3121, 3281,
   3445, 3613, 3785, 3961, 4141, 4325, 4513, 4705, 4901, 5101, 5305, 5513,
   5725, 5941, 6161, 6385, 6613, 6845, 7081, 7321, 7565, 7813, 8065, 8321,
   8581, 8845, 9113, 9385, 9661, 9941, 10225, 10513, 10805, 11101, 11401,
   11705, 12013, 12325, 12641, 12961, 13285, 13613, 13945, 14281, 14621,
   14965, 15313, 15665, 16021, 16381, 16745, 17113, 17485, 17861, 18241,
   18625, 19013, 19405, 19801, 20201, 20605, 21013, 21425, 21841, 22261,
   22685, 23113, 23545, 23981, 24421, 24865, 25313, 25765, 26221, 26681,
   27145, 27613, 28085, 28561, 29041, 29525, 30013, 30505, 31001, 31501,
   32005, 32513, 33025, 33541, 34061, 34585, 35113, 35645, 36181, 36721,
   37265, 37813, 38365, 38921, 39481, 40045, 40613, 41185, 41761, 42341,
   42925, 43513, 44105, 44701, 45301, 45905, 46513, 47125, 47741, 48361,
   48985, 49613, 50245, 50881, 51521, 52165, 52813, 53465, 54121, 54781,
   55445, 56113, 56785, 57461, 58141, 58825, 59513, 60205, 60901, 61601, 63,
   129, 231, 377, 575, 833, 1159, 1561, 2047, 2625, 3303, 4089, 4991, 6017,
   7175, 8473, 9919, 11521, 13287, 15225, 17343, 19649, 22151, 24857, 27775,
   30913, 34279, 37881, 41727, 45825, 50183, 54809, 59711, 64897, 70375,
   76153, 82239, 88641, 95367, 102425, 109823, 117569, 125671, 134137, 142975,
   152193, 161799, 171801, 182207, 193025, 204263, 215929, 228031, 240577,
   253575, 267033, 280959, 295361, 310247, 325625, 341503, 357889, 374791,
   392217, 410175, 428673, 447719, 467321, 487487, 508225, 529543, 551449,
   573951, 597057, 620775, 645113, 670079, 695681, 721927, 748825, 776383,
   804609, 833511, 863097, 893375, 924353, 956039, 988441, 1021567, 1055425,
   1090023, 1125369, 1161471, 1198337, 1235975, 1274393, 1313599, 1353601,
   1394407, 1436025, 1478463, 1521729, 1565831, 1610777, 1656575, 1703233,
   1750759, 1799161, 1848447, 1898625, 1949703, 2001689, 2054591, 2108417,
   2163175, 2218873, 2275519, 2333121, 2391687, 2451225, 2511743, 2573249,
   2635751, 2699257, 2763775, 2829313, 2895879, 2963481, 3032127, 3101825,
   3172583, 3244409, 3317311, 3391297, 3466375, 3542553, 3619839, 3698241,
   3777767, 3858425, 3940223, 4023169, 4107271, 4192537, 4278975, 4366593,
   4455399, 4545401, 4636607, 4729025, 4822663, 4917529, 5013631, 5110977,
   5209575, 5309433, 5410559, 5512961, 5616647, 5721625, 5827903, 5935489,
   6044391, 6154617, 6266175, 6379073, 6493319, 6608921, 6725887, 6844225,
   6963943, 7085049, 7207551, 321, 681, 1289, 2241, 3649, 5641, 8361, 11969,
   16641, 22569, 29961, 39041, 50049, 63241, 78889, 97281, 118721, 143529,
   172041, 204609, 241601, 283401, 330409, 383041, 441729, 506921, 579081,
   658689, 746241, 842249, 947241, 1061761, 1186369, 1321641, 1468169,
   1626561, 1797441, 1981449, 2179241, 2391489, 2618881, 2862121, 3121929,
   3399041, 3694209, 4008201, 4341801, 4695809, 5071041, 5468329, 5888521,
   6332481, 6801089, 7295241, 7815849, 8363841, 8940161, 9545769, 10181641,
   10848769, 11548161, 12280841, 13047849, 13850241, 14689089, 15565481,
   16480521, 17435329, 18431041, 19468809, 20549801, 21675201, 22846209,
   24064041, 25329929, 26645121, 28010881, 29428489, 30899241, 32424449,
   34005441, 35643561, 37340169, 39096641, 40914369, 42794761, 44739241,
   46749249, 48826241, 50971689, 53187081, 55473921, 57833729, 60268041,
   62778409, 65366401, 68033601, 70781609, 73612041, 76526529, 79526721,
   82614281, 85790889, 89058241, 92418049, 95872041, 99421961, 103069569,
   106816641, 110664969, 114616361, 118672641, 122835649, 127107241,
   131489289, 135983681, 140592321, 145317129, 150160041, 155123009,
   160208001, 165417001, 170752009, 176215041, 181808129, 187533321,
   193392681, 199388289, 205522241, 211796649, 218213641, 224775361,
   231483969, 238341641, 245350569, 252512961, 259831041, 267307049,
   274943241, 282741889, 290705281, 298835721, 307135529, 315607041,
   324252609, 333074601, 342075401, 351257409, 360623041, 370174729,
   379914921, 389846081, 399970689, 410291241, 420810249, 431530241,
   442453761, 453583369, 464921641, 476471169, 488234561, 500214441,
   512413449, 524834241, 537479489, 550351881, 563454121, 576788929,
   590359041, 604167209, 618216201, 632508801, 1683, 3653, 7183, 13073, 22363,
   36365, 56695, 85305, 124515, 177045, 246047, 335137, 448427, 590557,
   766727, 982729, 1244979, 1560549, 1937199, 2383409, 2908411, 3522221,
   4235671, 5060441, 6009091, 7095093, 8332863, 9737793, 11326283, 13115773,
   15124775, 17372905, 19880915, 22670725, 25765455, 29189457, 32968347,
   37129037, 41699767, 46710137, 52191139, 58175189, 64696159, 71789409,
   79491819, 87841821, 96879431, 106646281, 117185651, 128542501, 140763503,
   153897073, 167993403, 183104493, 199284183, 216588185, 235074115,
   254801525, 275831935, 298228865, 322057867, 347386557, 374284647,
   402823977, 433078547, 465124549, 499040399, 534906769, 572806619,
   612825229, 655050231, 699571641, 746481891, 795875861, 847850911,
   902506913, 959946283, 1020274013, 1083597703, 1150027593, 1219676595,
   1292660325, 1369097135, 1449108145, 1532817275, 1620351277, 1711839767,
   1807415257, 1907213187, 2011371957, 2120032959, 8989, 19825, 40081, 75517,
   134245, 227305, 369305, 579125, 880685, 1303777, 1884961, 2668525, 3707509,
   5064793, 6814249, 9041957, 11847485, 15345233, 19665841, 24957661,
   31388293, 39146185, 48442297, 59511829, 72616013, 88043969, 106114625,
   127178701, 151620757, 179861305, 212358985, 249612805, 292164445,
   340600625, 395555537, 457713341, 527810725, 606639529, 695049433,
   793950709, 904317037, 1027188385, 1163673953, 1314955181, 1482288821,
   1667010073, 1870535785, 2094367717, 48639, 108545, 224143, 433905, 795455,
   1392065, 2340495, 3800305, 5984767, 9173505, 13726991, 20103025, 28875327,
   40754369, 56610575, 77500017, 104692735, 139703809, 184327311, 240673265,
   311207743, 398796225, 506750351, 638878193, 799538175, 993696769,
   1226990095, 1505789553, 1837271615, 2229491905, 265729, 598417, 1256465,
   2485825, 4673345, 8405905, 14546705, 24331777, 39490049, 62390545,
   96220561, 145198913, 214828609, 312193553, 446304145, 628496897, 872893441,
   1196924561, 1621925137, 2173806145, 1462563, 3317445, 7059735, 14218905,
   27298155, 50250765, 89129247, 152951073, 254831667, 413442773, 654862247,
   1014889769, 1541911931, 2300409629, 3375210671, 8097453, 18474633,
   39753273, 81270333, 158819253, 298199265, 540279585, 948062325, 1616336765,
   45046719, 103274625, 224298231, 464387817, 921406335, 1759885185,
   3248227095, 251595969, 579168825, 1267854873, 2653649025, 1409933619]

def PVQ_U_ROW : List Nat :=
  [0, 176, 351, 525, 698, 870, 1041, 1131, 1178, 1207, 1226, 1240, 1248,
   1254, 1257]

/-- `pvq_u_row(row)[idx]`: `none` models the slice-index panic when either
lookup is out of bounds. -/
def pvqURowAt (row idx : Nat) : Option Nat := do
  let off ← PVQ_U_ROW[row]?
  PVQ_U[off + idx]?

/-- `pvq_u(n, k) = pvq_u_row(n.min(k))[n.max(k)]` from `decode_pulses`. -/
def pvqU (n k : Nat) : Option Nat := pvqURowAt (min n k) (max n k)

/-- `pvq_v(n, k) = pvq_u(n, k) + pvq_u(n, k + 1)` from `decode_pulses`. -/
def pvqV (n k : Nat) : Option Nat := do
  let a ← pvqU n k
  let b ← pvqU n (k + 1)
  return a + b

/-- The inner helper `update` of `cwrsi`: `d = k0 - k` (`u32` subtraction,
`none` on underflow), `val = (d as i32 + s) ^ s` (two's-complement xor, and
`none` when `val * val` overflows `i32` or the `norm` accumulator overflows
`u32`); returns the written `y` value and the new `norm`. -/
def cwrsiUpdate (k0 k : Nat) (s : Int) (norm : Nat) : Option (Int × Nat) :=
  if k0 < k then none else
  let d : Int := ((k0 - k : Nat) : Int)
  let val := Int.xor (d + s) s
  if (2 ^ 31 : Int) ≤ val * val then none else
  if (2 ^ 32 : Nat) ≤ norm + (val * val).toNat then none else
  some (val, norm + (val * val).toNat)

/-- `loop { k -= 1; p = pvq_u_row(k)[n]; if i >= p { break } }`
(decrement-first search); `none` models the `u32` underflow of `k -= 1`. -/
def searchDec (n i : Nat) : Nat → Option (Nat × Nat)
  | 0 => none
  | k + 1 => do
    let p ← pvqURowAt k n
    if p ≤ i then some (k, p) else searchDec n i k

/-- `loop { p = row[k]; if i >= p { break } k -= 1 }` with
`row = pvq_u_row(n)` (test-first search); `none` models the `u32`
underflow of `k -= 1` at `k = 0`. -/
def searchRow (n i : Nat) : Nat → Option (Nat × Nat)
  | 0 => do
    let p ← pvqURowAt n 0
    if p ≤ i then some (0, p) else none
  | k + 1 => do
    let p ← pvqURowAt n (k + 1)
    if p ≤ i then some (k + 1, p) else searchRow n i k

/-- What one iteration of the `while n > 2` loop of `cwrsi` writes. -/
inductive CwrsiEmit where
  | zero
  | pulse (k0 knew : Nat) (s : Int)

/-- One iteration of `cwrsi`'s `while n > 2` loop at dimension `n`:
returns the emit action together with the updated `(k, i)`. -/
def cwrsiStep (n k i : Nat) : Option (CwrsiEmit × Nat × Nat) :=
  if n ≤ k then do
    let p ← pvqURowAt n (k + 1)
    let (s, i1) := if p ≤ i then ((-1 : Int), i - p) else ((0 : Int), i)
    let k0 := k
    let q ← pvqURowAt n n
    let (k1, p1) ← if i1 < q then searchDec n i1 n else searchRow n i1 k
    some (CwrsiEmit.pulse k0 k1 s, k1, i1 - p1)
  else do
    let p ← pvqURowAt k n
    let q ← pvqURowAt (k + 1) n
    if p < i ∧ i < q then
      some (CwrsiEmit.zero, k, i - p)
    else
      let (s, i1) := if p ≤ i then ((-1 : Int), i - p) else ((0 : Int), i)
      let k0 := k
      let (k1, p1) ← searchDec n i1 k
      some (CwrsiEmit.pulse k0 k1 s, k1, i1 - p1)

/-- The `while n > 2` loop of `cwrsi` (structural on a fuel that starts at
`n`): emits one `y` entry per dimension from `n` down to 3 and threads
`(k, i, norm)`. -/
def cwrsiLoopAux : Nat → Nat → Nat → Nat → Nat → Option (List Int × Nat × Nat × Nat)
  | 0, _, k, i, norm => some ([], k, i, norm)
  | fuel + 1, n, k, i, norm =>
    if 2 < n then do
      let (e, k1, i1) ← cwrsiStep n k i
      let (val, norm1) ←
        match e with
        | CwrsiEmit.zero => some ((0 : Int), norm)
        | CwrsiEmit.pulse k0 knew s => cwrsiUpdate k0 knew s norm
      let (ys, r) ← cwrsiLoopAux fuel (n - 1) k1 i1 norm1
      some (val :: ys, r)
    else
      some ([], k, i, norm)

def cwrsiLoop (n k i norm : Nat) : Option (List Int × Nat × Nat × Nat) :=
  cwrsiLoopAux n n k i norm

/-- The `n == 2` block of `cwrsi`. -/
def cwrsiFinal2 (k i norm : Nat) : Option (Int × Nat × Nat × Nat) := do
  let p := 2 * k + 1
  let (s, i1) := if p ≤ i then ((-1 : Int), i - p) else ((0 : Int), i)
  let k1 := (i1 + 1) / 2
  let i2 := if k1 ≠ 0 then i1 - (2 * k1 - 1) else i1
  let (val, norm1) ← cwrsiUpdate k k1 s norm
  some (val, k1, i2, norm1)

/-- The `n == 1` block of `cwrsi`: `s = -(i as i32)`. -/
def cwrsiFinal1 (k i norm : Nat) : Option (Int × Nat) := do
  let s : Int := -(i : Int)
  cwrsiUpdate k 0 s norm

/-- `cwrsi(n, k, i, y)` with `y` of length `n` (as called from
`decode_pulses`): the loop fills positions `0..n-2`, the `n == 2` and
`n == 1` blocks fill the last two.  For `n < 2` the iterator's
`next().unwrap()` panics (`none`).  Returns the filled `y` and `norm`. -/
def cwrsi (n k i : Nat) : Option (List Int × Nat) :=
  if n < 2 then none
  else do
    let (ys, k1, i1, norm1) ← cwrsiLoop n k i 0
    let (y2, k2, i2, norm2) ← cwrsiFinal2 k1 i1 norm1
    let (y3, norm3) ← cwrsiFinal1 k2 i2 norm2
    some (ys ++ [y2, y3], norm3)

/-! ## Helper lemmas -/

theorem getBitsBE_lt (buf : List Nat) (pos : Nat) :
    ∀ n, getBitsBE buf pos n < 2 ^ n := by
  intro n
  induction n with
  | zero => simp [getBitsBE]
  | succ n ih =>
    have hb : byteBitBE buf (pos + n) < 2 := Nat.mod_lt _ (by norm_num)
    simp only [getBitsBE]
    calc getBitsBE buf pos n * 2 + byteBitBE buf (pos + n)
        < (getBitsBE buf pos n + 1) * 2 := by omega
      _ ≤ 2 ^ n * 2 := Nat.mul_le_mul_right 2 ih
      _ = 2 ^ (n + 1) := (pow_succ 2 n).symm

theorem getBitsRev_lt (buf : List Nat) (pos : Nat) :
    ∀ n, getBitsRev buf pos n < 2 ^ n := by
  intro n
  induction n with
  | zero => simp [getBitsRev]
  | succ n ih =>
    have hb : rawBitLE buf (pos + n) ≤ 1 := by
      unfold rawBitLE
      split
      · exact Nat.le_of_lt_succ (Nat.mod_lt _ (by norm_num))
      · norm_num
    simp only [getBitsRev, Nat.shiftLeft_eq]
    have h1 : rawBitLE buf (pos + n) * 2 ^ n ≤ 2 ^ n := by
      calc rawBitLE buf (pos + n) * 2 ^ n ≤ 1 * 2 ^ n := Nat.mul_le_mul_right _ hb
        _ = 2 ^ n := one_mul _
    have h2 : getBitsRev buf pos n + rawBitLE buf (pos + n) * 2 ^ n
        < 2 ^ n + 2 ^ n := Nat.add_lt_add_of_lt_of_le ih h1
    have h3 : (2 : Nat) ^ n + 2 ^ n = 2 ^ (n + 1) := by ring
    exact h3 ▸ h2

theorem shiftLeft_lor_eq_add (a b n : Nat) (h : b < 2 ^ n) :
    (a <<< n) ||| b = a <<< n + b := by
  apply Nat.eq_of_testBit_eq
  intro k
  rw [Nat.testBit_lor, Nat.shiftLeft_eq, mul_comm, Nat.testBit_mul_pow_two_add a h k]
  rcases lt_or_ge k n with hk | hk
  · rw [mul_comm, ← Nat.shiftLeft_eq, Nat.testBit_shiftLeft]
    simp [Nat.not_le.mpr hk, hk]
  · have hb : b.testBit k = false :=
      Nat.testBit_lt_two_pow (lt_of_lt_of_le h (Nat.pow_le_pow_right (by norm_num) hk))
    rw [mul_comm, ← Nat.shiftLeft_eq, Nat.testBit_shiftLeft]
    simp [hk, hb, Nat.not_lt.mpr hk]

/-- `findFirst` returns an in-bounds index. -/
theorem findFirst_lt_length (p : Nat → Bool) :
    ∀ (l : List Nat) (k : Nat), findFirst p l = some k → k < l.length := by
  intro l
  induction l with
  | nil => intro k h; simp [findFirst] at h
  | cons x xs ih =>
    intro k h
    simp only [findFirst] at h
    split at h
    · simp at h; simp [List.length_cons]; omega
    · cases hf : findFirst p xs with
      | none => rw [hf] at h; simp at h
      | some j =>
        rw [hf] at h; simp at h
        have := ih j hf
        simp [List.length_cons]; omega

/-- The element at the index returned by `findFirst` satisfies `p`. -/
theorem findFirst_getD (p : Nat → Bool) (d : Nat) :
    ∀ (l : List Nat) (k : Nat), findFirst p l = some k → p (l.getD k d) := by
  intro l
  induction l with
  | nil => intro k h; simp [findFirst] at h
  | cons x xs ih =>
    intro k h
    simp only [findFirst] at h
    split at h
    · simp at h; subst h; simpa [List.getD]
    · cases hf : findFirst p xs with
      | none => rw [hf] at h; simp at h
      | some j =>
        rw [hf] at h; simp at h
        subst h
        simpa [List.getD] using ih j hf

/-- Elements before the index returned by `findFirst` do not satisfy `p`. -/
theorem findFirst_min (p : Nat → Bool) (d : Nat) :
    ∀ (l : List Nat) (k j : Nat), findFirst p l = some k → j < k →
      p (l.getD j d) = false := by
  intro l
  induction l with
  | nil => intro k j h; simp [findFirst] at h
  | cons x xs ih =>
    intro k j h hj
    simp only [findFirst] at h
    split at h
    · simp at h; omega
    · cases hf : findFirst p xs with
      | none => rw [hf] at h; simp at h
      | some m =>
        rw [hf] at h; simp at h
        subst h
        cases j with
        | zero => simpa [List.getD] using (by assumption : ¬ p x = true)
        | succ j => simpa [List.getD] using ih m j hf (by omega)

/-! ## Range decoder invariant lemmas -/

theorem CODE_TOP_eq : CODE_TOP = 2147483648 := rfl
theorem CODE_BOT_eq : CODE_BOT = 8388608 := rfl

theorem normalizeStep_range (rd : RangeDecoder) :
    (normalizeStep rd).range = rd.range * 256 := by
  show rd.range <<< 8 = rd.range * 256
  rw [Nat.shiftLeft_eq]

theorem normalizeStep_value_lt (rd : RangeDecoder)
    (h1 : rd.value < rd.range) (h2 : rd.range ≤ CODE_BOT) :
    (normalizeStep rd).value < (normalizeStep rd).range := by
  have h2' : rd.range ≤ 8388608 := CODE_BOT_eq ▸ h2
  show ((rd.value <<< 8) ||| (getBitsBE rd.buf rd.bitpos 8 ^^^ 255)) &&&
      (2147483648 - 1) < rd.range <<< 8
  set v := getBitsBE rd.buf rd.bitpos 8 ^^^ 255 with hv_def
  have hv : v < 2 ^ 8 :=
    Nat.xor_lt_two_pow (getBitsBE_lt rd.buf rd.bitpos 8) (by norm_num)
  rw [shiftLeft_lor_eq_add _ _ _ hv, Nat.shiftLeft_eq, Nat.shiftLeft_eq]
  have hlt : rd.value * 2 ^ 8 + v < rd.range * 2 ^ 8 := by
    have h3 : (rd.value + 1) * 2 ^ 8 ≤ rd.range * 2 ^ 8 :=
      Nat.mul_le_mul_right _ h1
    omega
  have hsmall : rd.value * 2 ^ 8 + v < 2 ^ 31 := by
    have h4 : rd.range * 2 ^ 8 ≤ 8388608 * 2 ^ 8 := Nat.mul_le_mul_right _ h2'
    omega
  have hmask : (2147483648 : Nat) - 1 = 2 ^ 31 - 1 := by norm_num
  rw [hmask, Nat.and_pow_two_sub_one_eq_mod, Nat.mod_eq_of_lt hsmall]
  exact hlt

/-- `normalize` establishes the full invariant from any state with
`1 ≤ range ≤ CODE_TOP` and `value < range`. -/
theorem normalize_inv (rd : RangeDecoder) (h0 : 1 ≤ rd.range)
    (h1 : rd.value < rd.range) (h2 : rd.range ≤ CODE_TOP) :
    (normalize rd).Inv := by
  show (if rd.range ≤ CODE_BOT then normalizeAux 2 (normalizeStep rd) else rd).Inv
  by_cases c1 : rd.range ≤ CODE_BOT
  · rw [if_pos c1]
    have p1v : (normalizeStep rd).value < (normalizeStep rd).range :=
      normalizeStep_value_lt rd h1 c1
    have p1r : (normalizeStep rd).range = rd.range * 256 := normalizeStep_range rd
    show (if (normalizeStep rd).range ≤ CODE_BOT then
        normalizeAux 1 (normalizeStep (normalizeStep rd)) else normalizeStep rd).Inv
    by_cases c2 : (normalizeStep rd).range ≤ CODE_BOT
    · rw [if_pos c2]
      have p2v := normalizeStep_value_lt _ p1v c2
      have p2r := normalizeStep_range (normalizeStep rd)
      show (if (normalizeStep (normalizeStep rd)).range ≤ CODE_BOT then
          normalizeAux 0 (normalizeStep (normalizeStep (normalizeStep rd)))
          else normalizeStep (normalizeStep rd)).Inv
      by_cases c3 : (normalizeStep (normalizeStep rd)).range ≤ CODE_BOT
      · rw [if_pos c3]
        have p3v := normalizeStep_value_lt _ p2v c3
        have p3r := normalizeStep_range (normalizeStep (normalizeStep rd))
        show (normalizeStep (normalizeStep (normalizeStep rd))).Inv
        refine ⟨?_, ?_, p3v⟩
        · rw [p3r, p2r, p1r, CODE_BOT_eq]
          omega
        · rw [p3r, CODE_TOP_eq]
          rw [CODE_BOT_eq] at c3
          omega
      · rw [if_neg c3]
        refine ⟨lt_of_not_le c3, ?_, p2v⟩
        rw [p2r, CODE_TOP_eq]
        rw [CODE_BOT_eq] at c2
        omega
    · rw [if_neg c2]
      refine ⟨lt_of_not_le c2, ?_, p1v⟩
      rw [p1r, CODE_TOP_eq]
      rw [CODE_BOT_eq] at c1
      omega
  · rw [if_neg c1]
    exact ⟨lt_of_not_le c1, h2, h1⟩

/-- A state already satisfying the invariant is a fixpoint of `normalize`
(the loop guard fails immediately). -/
theorem normalize_of_inv (rd : RangeDecoder) (h : rd.Inv) : normalize rd = rd := by
  obtain ⟨h1, _, _⟩ := h
  show (if rd.range ≤ CODE_BOT then normalizeAux 2 (normalizeStep rd) else rd) = rd
  rw [if_neg (by omega)]

theorem inv_preserved_normalize (rd : RangeDecoder) (h : rd.Inv) :
    (normalize rd).Inv := by
  rw [normalize_of_inv rd h]; exact h

/-- If `update` returns a state, the invariant is preserved, provided
`scale * total ≤ range` (true at every call site, where `scale` is
`range / total` or `range >> 15` with `total = 2^15`) and a nonzero `low`
argument lies at or below the decoded symbol. -/
theorem update_inv_of_some (rd rd' : RangeDecoder) (scale low high total : Nat)
    (hInv : rd.Inv)
    (hsc : scale * total ≤ rd.range)
    (hlow : low ≠ 0 → low ≤ total - min (rd.value / scale + 1) total)
    (hupd : update rd scale low high total = some rd') : rd'.Inv := by
  obtain ⟨hbot, htop, hvr⟩ := hInv
  simp only [update] at hupd
  split at hupd
  · exact absurd hupd (by simp)
  · rename_i hth
    split at hupd
    · exact absurd hupd (by simp)
    · rename_i hsv
      split at hupd
      · -- low ≠ 0 branch
        rename_i hl0
        split at hupd
        · exact absurd hupd (by simp)
        · rename_i hhl
          split at hupd
          · exact absurd hupd (by simp)
          · rename_i hrz
            have hscale : 1 ≤ scale := by
              rcases Nat.eq_zero_or_pos scale with h | h
              · subst h; simp at hrz
              · exact h
            have hls := hlow hl0
            -- the min cannot be `total`, else `low = 0`
            have hmin : rd.value / scale + 1 ≤ total := by
              by_contra hc
              have : min (rd.value / scale + 1) total = total := by omega
              rw [this] at hls
              omega
            have hmin2 : min (rd.value / scale + 1) total = rd.value / scale + 1 := by
              omega
            rw [hmin2] at hls
            have hdiv : rd.value / scale < total - low := by omega
            have hvlt : rd.value < (total - low) * scale :=
              (Nat.div_lt_iff_lt_mul hscale).mp hdiv
            have hsplit : (total - low) * scale =
                scale * (total - high) + scale * (high - low) := by
              have h1 : ¬ total < high := hth
              have h2 : ¬ high < low := hhl
              have h3 : total - low = (total - high) + (high - low) := by omega
              rw [h3]
              ring
            have hAle : scale * (total - high) ≤ rd.value := Nat.not_lt.mp hsv
            have hvlt2 : rd.value - scale * (total - high) < scale * (high - low) := by
              rw [Nat.sub_lt_iff_lt_add hAle, ← hsplit]
              exact hvlt
            have hrle : scale * (high - low) ≤ CODE_TOP := by
              calc scale * (high - low) ≤ scale * total := by
                    exact Nat.mul_le_mul_left scale (by omega)
                _ ≤ rd.range := hsc
                _ ≤ CODE_TOP := htop
            injection hupd with h
            subst h
            exact normalize_inv _ (by show 1 ≤ scale * (high - low); omega) hvlt2 hrle
      · -- low = 0 branch
        split at hupd
        · exact absurd hupd (by simp)
        · split at hupd
          · exact absurd hupd (by simp)
          · rename_i hrs hrz
            injection hupd with h
            subst h
            refine normalize_inv _
              (by show 1 ≤ rd.range - scale * (total - high); omega)
              (by show rd.value - scale * (total - high) <
                    rd.range - scale * (total - high); omega)
              (by show rd.range - scale * (total - high) ≤ CODE_TOP; omega)

theorem findFirst_isSome (p : Nat → Bool) :
    ∀ (l : List Nat), (∃ x ∈ l, p x) → ∃ k, findFirst p l = some k := by
  intro l
  induction l with
  | nil => rintro ⟨x, hx, _⟩; simp at hx
  | cons y ys ih =>
    rintro ⟨x, hx, hpx⟩
    simp only [findFirst]
    by_cases hy : p y
    · exact ⟨0, by rw [if_pos hy]⟩
    · have hxy : x ∈ ys := by
        rcases List.mem_cons.mp hx with h | h
        · subst h; exact absurd hpx hy
        · exact h
      obtain ⟨k, hk⟩ := ih ⟨x, hxy, hpx⟩
      exact ⟨k + 1, by rw [if_neg hy, hk]; rfl⟩

/-- `getScaleSymbol` succeeds exactly with `scale = range / total` and the
symbol `total - min(value / scale + 1, total)`. -/
theorem getScaleSymbol_some (rd : RangeDecoder) (total scale sym : Nat)
    (h : getScaleSymbol rd total = some (scale, sym)) :
    total ≠ 0 ∧ scale = rd.range / total ∧ scale ≠ 0 ∧
      sym = total - min (rd.value / scale + 1) total := by
  simp only [getScaleSymbol] at h
  split at h
  · exact absurd h (by simp)
  · split at h
    · exact absurd h (by simp)
    · rename_i ht hs
      injection h with h
      injection h with h1 h2
      subst h1
      exact ⟨ht, rfl, hs, h2.symm⟩

/-- `update` succeeds (no panic) whenever it is called with
`low ≤ sym < high ≤ total` for the decoded symbol `sym`, a nonzero
`scale`, and `value < range`. -/
theorem update_isSome (rd : RangeDecoder) (scale low high total : Nat)
    (hvr : rd.value < rd.range) (hscale : 1 ≤ scale)
    (hls : low ≤ total - min (rd.value / scale + 1) total)
    (hsh : total - min (rd.value / scale + 1) total < high)
    (hht : high ≤ total) :
    ∃ rd', update rd scale low high total = some rd' := by
  have hmlt : total - high < min (rd.value / scale + 1) total := by omega
  have hm2 : total - high ≤ rd.value / scale := by
    have := min_le_left (rd.value / scale + 1) total
    omega
  have hs_le : scale * (total - high) ≤ rd.value := by
    calc scale * (total - high) ≤ scale * (rd.value / scale) :=
          Nat.mul_le_mul_left scale hm2
      _ ≤ rd.value := by rw [mul_comm]; exact Nat.div_mul_le_self rd.value scale
  simp only [update]
  rw [if_neg (by omega : ¬ total < high), if_neg (Nat.not_lt.mpr hs_le)]
  by_cases hl0 : low = 0
  · rw [if_neg (by simp [hl0])]
    rw [if_neg (Nat.not_lt.mpr (le_trans hs_le (le_of_lt hvr)))]
    rw [if_neg (by omega : ¬ rd.range - scale * (total - high) = 0)]
    exact ⟨_, rfl⟩
  · rw [if_pos hl0]
    rw [if_neg (by omega : ¬ high < low)]
    rw [if_neg (by
      have h1 : 0 < scale * (high - low) := Nat.mul_pos hscale (by omega)
      omega)]
    exact ⟨_, rfl⟩

/-- `update` succeeds and preserves the invariant. -/
theorem update_some (rd : RangeDecoder) (scale low high total : Nat)
    (hInv : rd.Inv) (hscale : 1 ≤ scale) (hsc : scale * total ≤ rd.range)
    (hls : low ≤ total - min (rd.value / scale + 1) total)
    (hsh : total - min (rd.value / scale + 1) total < high)
    (hht : high ≤ total) :
    ∃ rd', update rd scale low high total = some rd' ∧ rd'.Inv := by
  obtain ⟨rd', hrd'⟩ := update_isSome rd scale low high total hInv.2.2 hscale
    hls hsh hht
  exact ⟨rd', hrd', update_inv_of_some rd rd' scale low high total hInv hsc
    (fun _ => hls) hrd'⟩

/-- Core success lemma for `decode_icdf`: with a table whose maximal
element is `total` (present in `dist`), `1 ≤ total ≤ CODE_BOT`, and a state
with `value < range` and `CODE_BOT < range`, the decode returns an
in-bounds index (no panic). -/
theorem decodeIcdf_isSome_core (rd : RangeDecoder) (total : Nat)
    (dist : List Nat) (hbot : CODE_BOT < rd.range) (hvr : rd.value < rd.range)
    (h1 : 1 ≤ total) (h2 : total ≤ CODE_BOT)
    (hmem : total ∈ dist) (hub : ∀ x ∈ dist, x ≤ total) :
    ∃ k rd', decodeIcdf rd ⟨total, dist⟩ = some (k, rd') ∧
      k < dist.length := by
  have htr : total ≤ rd.range := by rw [CODE_BOT_eq] at *; omega
  have hscale : 1 ≤ rd.range / total := (Nat.one_le_div_iff (by omega)).mpr htr
  have hgs : getScaleSymbol rd total =
      some (rd.range / total,
        total - min (rd.value / (rd.range / total) + 1) total) := by
    simp only [getScaleSymbol]
    rw [if_neg (by omega), if_neg (by omega)]
  set scale := rd.range / total with hscdef
  set sym := total - min (rd.value / scale + 1) total with hsymdef
  have hsym_lt : sym < total := by
    have hone : 0 < min (rd.value / scale + 1) total := lt_min (Nat.succ_pos _) (by omega)
    exact Nat.sub_lt (by omega) hone
  obtain ⟨k, hk⟩ := findFirst_isSome (fun v => sym < v) dist
    ⟨total, hmem, by simpa using hsym_lt⟩
  have hklen := findFirst_lt_length _ _ _ hk
  have hhigh : sym < dist.getD k 0 := by
    simpa using findFirst_getD (fun v => sym < v) 0 _ _ hk
  have hhight : dist.getD k 0 ≤ total := by
    refine hub _ ?_
    rw [List.getD_eq_getElem dist 0 hklen]
    exact List.getElem_mem hklen
  have hlow : (if 0 < k then dist.getD (k - 1) 0 else 0) ≤ sym := by
    split
    · rename_i hkpos
      have := findFirst_min (fun v => sym < v) 0 _ _ (k - 1) hk (by omega)
      simpa using this
    · omega
  obtain ⟨rd', hrd'⟩ := update_isSome rd scale
    (if 0 < k then dist.getD (k - 1) 0 else 0) (dist.getD k 0) total hvr
    hscale hlow hhigh hhight
  refine ⟨k, rd', ?_, hklen⟩
  simp only [decodeIcdf, hgs, hk, hrd', Option.bind_eq_bind, Option.some_bind]

/-- Invariant preservation for `decode_icdf` with arbitrary arguments:
whenever it returns at all, the new state satisfies the invariant. -/
theorem decodeIcdf_inv (rd : RangeDecoder) (icdf : ICDFContext) (k : Nat)
    (rd2 : RangeDecoder) (h : decodeIcdf rd icdf = some (k, rd2))
    (hInv : rd.Inv) : rd2.Inv := by
  cases hgs : getScaleSymbol rd icdf.total with
  | none =>
    simp only [decodeIcdf, hgs, Option.bind_eq_bind, Option.none_bind] at h
    exact Option.noConfusion h
  | some p =>
    obtain ⟨scale, sym⟩ := p
    obtain ⟨ht0, hsc, hs0, hsym⟩ := getScaleSymbol_some rd icdf.total scale sym hgs
    cases hk : findFirst (fun v => sym < v) icdf.dist with
    | none =>
      simp only [decodeIcdf, hgs, hk, Option.bind_eq_bind, Option.some_bind,
        Option.none_bind] at h
      exact Option.noConfusion h
    | some k0 =>
      cases hup : update rd scale
          (if 0 < k0 then icdf.dist.getD (k0 - 1) 0 else 0)
          (icdf.dist.getD k0 0) icdf.total with
      | none =>
        simp only [decodeIcdf, hgs, hk, hup, Option.bind_eq_bind,
          Option.some_bind, Option.none_bind] at h
        exact Option.noConfusion h
      | some rd0 =>
        simp only [decodeIcdf, hgs, hk, hup, Option.bind_eq_bind,
          Option.some_bind, Option.some.injEq, Prod.mk.injEq] at h
        obtain ⟨hk0, hrd0⟩ := h
        subst hk0
        subst hrd0
        refine update_inv_of_some rd rd0 scale _ _ icdf.total hInv ?_ ?_ hup
        · rw [hsc]; exact Nat.div_mul_le_self rd.range icdf.total
        · intro hl0
          rw [← hsym]
          split at hl0
          · rename_i hkpos
            have hmn := findFirst_min (fun v => sym < v) 0 _ _ (k0 - 1) hk
              (by omega)
            rw [if_pos hkpos]
            simpa using hmn
          · omega

/-- `decode_icdf` succeeds, returns an in-bounds index, and preserves the
invariant, for a table with maximal element `total ∈ dist` and
`1 ≤ total ≤ CODE_BOT`. -/
theorem decodeIcdf_some_inv (rd : RangeDecoder) (total : Nat)
    (dist : List Nat) (hInv : rd.Inv) (h1 : 1 ≤ total) (h2 : total ≤ CODE_BOT)
    (hmem : total ∈ dist) (hub : ∀ x ∈ dist, x ≤ total) :
    ∃ k rd', decodeIcdf rd ⟨total, dist⟩ = some (k, rd') ∧
      k < dist.length ∧ rd'.Inv := by
  obtain ⟨k, rd', hk, hlen⟩ := decodeIcdf_isSome_core rd total dist
    hInv.1 hInv.2.2 h1 h2 hmem hub
  exact ⟨k, rd', hk, hlen, decodeIcdf_inv rd ⟨total, dist⟩ k rd' hk hInv⟩

theorem decodeLogp_inv (rd : RangeDecoder) (logp : Nat) (hInv : rd.Inv) :
    (decodeLogp rd logp).2.Inv := by
  obtain ⟨hbot, htop, hvr⟩ := hInv
  simp only [decodeLogp]
  have hAle : rd.range >>> logp ≤ rd.range := by
    rw [Nat.shiftRight_eq_div_pow]; exact Nat.div_le_self _ _
  generalize hA : rd.range >>> logp = A at hAle ⊢
  split
  · rename_i hlt
    show (normalize { rd with range := A }).Inv
    exact normalize_inv _ (by show 1 ≤ A; omega)
      (by show rd.value < A; omega)
      (by show A ≤ CODE_TOP; omega)
  · rename_i hge
    show (normalize
      { rd with range := rd.range - A, value := rd.value - A }).Inv
    exact normalize_inv _
      (by show 1 ≤ rd.range - A; omega)
      (by show rd.value - A < rd.range - A; omega)
      (by show rd.range - A ≤ CODE_TOP; omega)

/-- The raw-bits state change does not touch the range-coder fields. -/
theorem rawbits_inv (rd : RangeDecoder) (len : Nat) (hInv : rd.Inv) :
    (rawbits rd len).2.Inv := hInv

theorem ilogAux_lt (fuel : Nat) :
    ∀ x : Nat, x ≤ fuel → x < 2 ^ ilogAux fuel x := by
  induction fuel with
  | zero => intro x hx; interval_cases x; simp [ilogAux]
  | succ fuel ih =>
    intro x hx
    show x < 2 ^ (if x = 0 then 0 else ilogAux fuel (x / 2) + 1)
    split
    · rename_i h; subst h; norm_num
    · rename_i h
      have ih2 := ih (x / 2) (by omega)
      have hp : (2 : Nat) ^ (ilogAux fuel (x / 2) + 1) =
          2 * 2 ^ ilogAux fuel (x / 2) := by ring
      omega

/-- Every natural number is below `2 ^ ilog` of itself. -/
theorem lt_two_pow_ilog (x : Nat) : x < 2 ^ ilog x :=
  ilogAux_lt x x (le_refl x)

theorem decodeUniform_inv (rd : RangeDecoder) (len k : Nat)
    (rd2 : RangeDecoder) (h : decodeUniform rd len = some (k, rd2))
    (hInv : rd.Inv) : rd2.Inv := by
  simp only [decodeUniform] at h
  split at h
  · exact Option.noConfusion h
  · rename_i hlen
    cases hgs : getScaleSymbol rd
        (if UNI_BITS < ilog (len - 1)
         then (len - 1) >>> (ilog (len - 1) - UNI_BITS) + 1 else len) with
    | none =>
      rw [hgs] at h
      simp only [Option.bind_eq_bind, Option.none_bind] at h
      exact Option.noConfusion h
    | some p =>
      obtain ⟨scale, sym⟩ := p
      obtain ⟨ht0, hsc, hs0, hsym⟩ := getScaleSymbol_some rd _ scale sym hgs
      rw [hgs] at h
      simp only [Option.bind_eq_bind, Option.some_bind] at h
      cases hup : update rd scale sym (sym + 1)
          (if UNI_BITS < ilog (len - 1)
           then (len - 1) >>> (ilog (len - 1) - UNI_BITS) + 1 else len) with
      | none =>
        rw [hup] at h
        simp only [Option.none_bind] at h
        exact Option.noConfusion h
      | some rd1 =>
        rw [hup] at h
        simp only [Option.some_bind] at h
        have hinv1 : rd1.Inv := by
          refine update_inv_of_some rd rd1 scale sym (sym + 1) _ hInv ?_ ?_ hup
          · rw [hsc]; exact Nat.div_mul_le_self rd.range _
          · intro _; omega
        split at h
        · simp only [rawbits, Option.some.injEq, Prod.mk.injEq] at h
          obtain ⟨_, hrd2⟩ := h
          subst hrd2
          exact hinv1
        · simp only [Option.some.injEq, Prod.mk.injEq] at h
          obtain ⟨_, hrd2⟩ := h
          subst hrd2
          exact hinv1

/-- Core lemma for `decode_uniform` with `n ≥ 2` under the invariant: the
decode succeeds, preserves the invariant, the single-symbol case yields a
result below `n`, and the split case yields a result below
`total << (bits - 8)`. -/
theorem decodeUniform_some_core (rd : RangeDecoder) (n : Nat) (hInv : rd.Inv)
    (hn : 2 ≤ n) :
    ∃ res rd2, decodeUniform rd n = some (res, rd2) ∧ rd2.Inv ∧
      (ilog (n - 1) ≤ UNI_BITS → res < n) ∧
      (UNI_BITS < ilog (n - 1) →
        res < ((n - 1) >>> (ilog (n - 1) - UNI_BITS) + 1) <<<
          (ilog (n - 1) - UNI_BITS)) := by
  have hInv' := hInv
  obtain ⟨hbot, htop, hvr⟩ := hInv'
  set bits := ilog (n - 1) with hbits
  set T := if UNI_BITS < bits then (n - 1) >>> (bits - UNI_BITS) + 1 else n
    with hT
  have hpow : n - 1 < 2 ^ bits := lt_two_pow_ilog (n - 1)
  have hT1 : 1 ≤ T := by
    rw [hT]; split
    · exact Nat.le_add_left 1 _
    · omega
  have hT256 : T ≤ 256 := by
    rw [hT]
    split
    · rename_i hbu
      have hsplit : (2 : Nat) ^ bits = 2 ^ 8 * 2 ^ (bits - UNI_BITS) := by
        rw [← pow_add]
        congr 1
        simp only [UNI_BITS] at hbu ⊢
        omega
      have hlt8 : (n - 1) >>> (bits - UNI_BITS) < 2 ^ 8 := by
        rw [Nat.shiftRight_eq_div_pow]
        rw [Nat.div_lt_iff_lt_mul (Nat.pos_pow_of_pos _ (by norm_num))]
        calc n - 1 < 2 ^ bits := hpow
          _ = 2 ^ 8 * 2 ^ (bits - UNI_BITS) := hsplit
      exact Nat.succ_le_of_lt hlt8
    · rename_i hbu
      have hble : bits ≤ 8 := by simpa [UNI_BITS] using hbu
      have : (2 : Nat) ^ bits ≤ 2 ^ 8 := Nat.pow_le_pow_right (by norm_num) hble
      omega
  have hTr : T ≤ rd.range := by rw [CODE_BOT_eq] at hbot; omega
  have hscale : 1 ≤ rd.range / T := (Nat.one_le_div_iff (by omega)).mpr hTr
  have hgs : getScaleSymbol rd T =
      some (rd.range / T, T - min (rd.value / (rd.range / T) + 1) T) := by
    simp only [getScaleSymbol]
    rw [if_neg (by omega), if_neg (by omega)]
  set scale := rd.range / T with hscdef
  set sym := T - min (rd.value / scale + 1) T with hsymdef
  have hsymlt : sym < T :=
    Nat.sub_lt (by omega) (lt_min (Nat.succ_pos _) (by omega))
  obtain ⟨rd1, hup, hinv1⟩ := update_some rd scale sym (sym + 1) T hInv hscale
    (by rw [hscdef]; exact Nat.div_mul_le_self rd.range T)
    (le_refl _) (by omega) (by omega)
  by_cases hbu : UNI_BITS < bits
  · refine ⟨sym <<< (bits - UNI_BITS) |||
        getBitsRev rd1.buf rd1.revpos (bits - UNI_BITS),
      { rd1 with revpos := rd1.revpos + (bits - UNI_BITS) }, ?_, hinv1, ?_, ?_⟩
    · simp only [decodeUniform]
      rw [if_neg (by omega : ¬ n = 0), ← hbits, ← hT, hgs]
      simp only [Option.bind_eq_bind, Option.some_bind]
      rw [hup]
      simp only [Option.some_bind, rawbits]
      rw [if_pos hbu]
    · intro hc; simp only [UNI_BITS] at hbu hc; omega
    · intro _
      have hraw : getBitsRev rd1.buf rd1.revpos (bits - UNI_BITS)
          < 2 ^ (bits - UNI_BITS) := getBitsRev_lt _ _ _
      rw [shiftLeft_lor_eq_add _ _ _ hraw, Nat.shiftLeft_eq, Nat.shiftLeft_eq]
      have hTval : (n - 1) >>> (bits - UNI_BITS) + 1 = T := by
        rw [hT, if_pos hbu]
      rw [hTval]
      have h1 : (sym + 1) * 2 ^ (bits - UNI_BITS) ≤ T * 2 ^ (bits - UNI_BITS) :=
        Nat.mul_le_mul_right _ (by omega)
      have hd : (sym + 1) * 2 ^ (bits - UNI_BITS) =
          sym * 2 ^ (bits - UNI_BITS) + 2 ^ (bits - UNI_BITS) := by ring
      have h2 : sym * 2 ^ (bits - UNI_BITS) +
          getBitsRev rd1.buf rd1.revpos (bits - UNI_BITS)
          < (sym + 1) * 2 ^ (bits - UNI_BITS) := by
        have := hraw
        omega
      omega
  · refine ⟨sym, rd1, ?_, hinv1, ?_, ?_⟩
    · simp only [decodeUniform]
      rw [if_neg (by omega : ¬ n = 0), ← hbits, ← hT, hgs]
      simp only [Option.bind_eq_bind, Option.some_bind]
      rw [hup]
      simp only [Option.some_bind]
      rw [if_neg hbu]
    · intro _
      have : T = n := by rw [hT, if_neg hbu]
      omega
    · intro hc; exact absurd hc hbu

/-- The laplace loop keeps `low ≤ center`, and on exit the loop guard has
failed. -/
theorem laplaceLoop_some_le (center decay : Nat) :
    ∀ (fuel : Nat) (v : Int) (low symbol : Nat) (v2 : Int) (low2 sym2 : Nat),
      laplaceLoop center decay fuel (v, low, symbol) = some (v2, low2, sym2) →
      low ≤ center →
      low2 ≤ center ∧ (sym2 ≤ 1 ∨ center < low2 + 2 * sym2) := by
  intro fuel
  induction fuel with
  | zero =>
    intro v low symbol v2 low2 sym2 h _
    exact Option.noConfusion h
  | succ fuel ih =>
    intro v low symbol v2 low2 sym2 h hlc
    simp only [laplaceLoop] at h
    split at h
    · rename_i hcond
      exact ih _ _ _ _ _ _ h (by omega)
    · rename_i hcond
      simp only [Option.some.injEq, Prod.mk.injEq] at h
      obtain ⟨_, hl, hs⟩ := h
      subst hl; subst hs
      refine ⟨hlc, ?_⟩
      omega

theorem decodeLaplace_inv (rd : RangeDecoder) (symbol decay : Nat) (v : Int)
    (rd2 : RangeDecoder) (h : decodeLaplace rd symbol decay = some (v, rd2))
    (hInv : rd.Inv) : rd2.Inv := by
  simp only [decodeLaplace] at h
  rw [show (1 <<< 15 : Nat) = 32768 from rfl] at h
  have hsc32 : (rd.range >>> 15) * 32768 ≤ rd.range := by
    rw [Nat.shiftRight_eq_div_pow]
    rw [show ((2 : Nat) ^ 15) = 32768 from rfl]
    exact Nat.div_mul_le_self rd.range 32768
  split at h
  · exact Option.noConfusion h
  · rename_i hs0
    split at h
    · -- `center >= symbol` branch
      rename_i hsc
      split at h
      · exact Option.noConfusion h
      · rename_i hg1
        split at h
        · exact Option.noConfusion h
        · rename_i hg2
          cases hl : laplaceLoop
              (32768 - min (rd.value / (rd.range >>> 15) + 1) 32768) decay
              ((32768 - min (rd.value / (rd.range >>> 15) + 1) 32768) + 1)
              (1, symbol,
                1 + (((32768 - 32 - symbol) * (16384 - decay)) >>> 15)) with
          | none =>
            rw [hl] at h
            simp only [Option.bind_eq_bind, Option.none_bind] at h
            exact Option.noConfusion h
          | some t =>
            obtain ⟨v1, low1, sym1⟩ := t
            rw [hl] at h
            simp only [Option.bind_eq_bind, Option.some_bind] at h
            have hlow1 := laplaceLoop_some_le _ decay _ 1 symbol _ v1 low1 sym1 hl hsc
            obtain ⟨hl1c, hexit⟩ := hlow1
            set C := 32768 - min (rd.value / (rd.range >>> 15) + 1) 32768 with hC
            split at h
            · -- sym1 ≤ 1 : the dist adjustment ran
              rename_i hds
              split at h
              · -- center < low + symbol : value negated, low unchanged
                cases hup : update rd (rd.range >>> 15)
                    (low1 + 2 * ((C - low1) >>> 1))
                    (min 32768 (low1 + 2 * ((C - low1) >>> 1) + sym1)) 32768 with
                | none =>
                  rw [hup] at h
                  simp only [Option.none_bind] at h
                  exact Option.noConfusion h
                | some rd1 =>
                  rw [hup] at h
                  simp only [Option.some_bind, Option.some.injEq,
                    Prod.mk.injEq] at h
                  obtain ⟨_, hrd⟩ := h
                  subst hrd
                  refine update_inv_of_some rd rd1 _ _ _ _ hInv hsc32 ?_ hup
                  intro _
                  rw [Nat.shiftRight_eq_div_pow, show ((2:Nat) ^ 1) = 2 from rfl]
                  omega
              · cases hup : update rd (rd.range >>> 15)
                    (low1 + 2 * ((C - low1) >>> 1) + sym1)
                    (min 32768 (low1 + 2 * ((C - low1) >>> 1) + sym1 + sym1))
                    32768 with
                | none =>
                  rw [hup] at h
                  simp only [Option.none_bind] at h
                  exact Option.noConfusion h
                | some rd1 =>
                  rename_i hnc
                  rw [hup] at h
                  simp only [Option.some_bind, Option.some.injEq,
                    Prod.mk.injEq] at h
                  obtain ⟨_, hrd⟩ := h
                  subst hrd
                  refine update_inv_of_some rd rd1 _ _ _ _ hInv hsc32 ?_ hup
                  intro _
                  omega
            · -- sym1 > 1 : no dist adjustment
              rename_i hds
              split at h
              · cases hup : update rd (rd.range >>> 15) low1
                    (min 32768 (low1 + sym1)) 32768 with
                | none =>
                  rw [hup] at h
                  simp only [Option.none_bind] at h
                  exact Option.noConfusion h
                | some rd1 =>
                  rw [hup] at h
                  simp only [Option.some_bind, Option.some.injEq,
                    Prod.mk.injEq] at h
                  obtain ⟨_, hrd⟩ := h
                  subst hrd
                  refine update_inv_of_some rd rd1 _ _ _ _ hInv hsc32 ?_ hup
                  intro _
                  omega
              · cases hup : update rd (rd.range >>> 15) (low1 + sym1)
                    (min 32768 (low1 + sym1 + sym1)) 32768 with
                | none =>
                  rw [hup] at h
                  simp only [Option.none_bind] at h
                  exact Option.noConfusion h
                | some rd1 =>
                  rename_i hnc
                  rw [hup] at h
                  simp only [Option.some_bind, Option.some.injEq,
                    Prod.mk.injEq] at h
                  obtain ⟨_, hrd⟩ := h
                  subst hrd
                  refine update_inv_of_some rd rd1 _ _ _ _ hInv hsc32 ?_ hup
                  intro _
                  omega
    · -- `center < symbol` branch: low = 0
      cases hup : update rd (rd.range >>> 15) 0 (min 32768 symbol) 32768 with
      | none =>
        rw [hup] at h
        simp only [Option.bind_eq_bind, Option.none_bind] at h
        exact Option.noConfusion h
      | some rd1 =>
        rw [hup] at h
        simp only [Option.bind_eq_bind, Option.some_bind, Option.some.injEq,
          Prod.mk.injEq] at h
        obtain ⟨_, hrd⟩ := h
        subst hrd
        exact update_inv_of_some rd rd1 _ _ _ _ hInv hsc32
          (fun hc => absurd rfl hc) hup

/-- In a strictly increasing list the last element is an upper bound. -/
theorem chain_getLast_max :
    ∀ (l : List Nat) (a : Nat), List.Chain' (· < ·) l →
      l.getLast? = some a → ∀ x ∈ l, x ≤ a := by
  intro l
  induction l with
  | nil => intro a _ hl; simp at hl
  | cons b t ih =>
    intro a hch hl x hx
    cases t with
    | nil =>
      simp at hl hx
      omega
    | cons c t2 =>
      have hch2 : List.Chain' (· < ·) (c :: t2) := hch.tail
      have hbc : b < c := List.chain'_cons.mp hch |>.1
      have hl2 : (c :: t2).getLast? = some a := by
        rwa [List.getLast?_cons_cons] at hl
      have hca : c ≤ a := ih a hch2 hl2 c (by simp)
      rcases List.mem_cons.mp hx with h | h
      · omega
      · exact ih a hch2 hl2 x h

/-- From `range = 128` the normalize loop runs exactly three iterations:
`total` grows by 24 and `range` ends at `CODE_TOP`. -/
theorem normalize_from_128 (rd : RangeDecoder) (hr : rd.range = 128) :
    (normalize rd).total = rd.total + 24 ∧ (normalize rd).range = CODE_TOP := by
  have g1 : rd.range ≤ CODE_BOT := by rw [hr, CODE_BOT_eq]; omega
  have r1 : (normalizeStep rd).range = 32768 := by rw [normalizeStep_range, hr]
  have g2 : (normalizeStep rd).range ≤ CODE_BOT := by rw [r1, CODE_BOT_eq]; omega
  have r2 : (normalizeStep (normalizeStep rd)).range = 8388608 := by
    rw [normalizeStep_range, r1]
  have g3 : (normalizeStep (normalizeStep rd)).range ≤ CODE_BOT := by
    rw [r2, CODE_BOT_eq]
  have r3 : (normalizeStep (normalizeStep (normalizeStep rd))).range =
      2147483648 := by rw [normalizeStep_range, r2]
  have hnorm : normalize rd =
      normalizeStep (normalizeStep (normalizeStep rd)) := by
    show (if rd.range ≤ CODE_BOT then normalizeAux 2 (normalizeStep rd)
        else rd) = _
    rw [if_pos g1]
    show (if (normalizeStep rd).range ≤ CODE_BOT then
        normalizeAux 1 (normalizeStep (normalizeStep rd))
        else normalizeStep rd) = _
    rw [if_pos g2]
    show (if (normalizeStep (normalizeStep rd)).range ≤ CODE_BOT then
        normalizeAux 0 (normalizeStep (normalizeStep (normalizeStep rd)))
        else normalizeStep (normalizeStep rd)) = _
    rw [if_pos g3]
    rfl
  constructor
  · rw [hnorm]
    show rd.total + SYM_BITS + SYM_BITS + SYM_BITS = rd.total + 24
    show rd.total + 8 + 8 + 8 = rd.total + 24
    omega
  · rw [hnorm, r3, CODE_TOP_eq]

/-! ## Claim theorems: range decoder -/

/-- C1: for every input byte sequence, the range-decoder invariant
`CODE_BOT < range ≤ CODE_TOP` and `value < range` (spec §3, §8) is
established by `RangeDecoder::new` and preserved by `normalize` and by
every decoding operation — `decode_icdf`, `decode_logp`, `decode_uniform`
and `decode_laplace` — whenever the operation returns a state (a `none`
result models a panic of the source, which produces no state). -/
theorem rangeDecoder_invariant :
    (∀ buf : List Nat, (rangeDecoderNew buf).Inv) ∧
    (∀ rd : RangeDecoder, rd.Inv → (normalize rd).Inv) ∧
    (∀ (rd : RangeDecoder) (icdf : ICDFContext) (k : Nat) (rd2 : RangeDecoder),
      decodeIcdf rd icdf = some (k, rd2) → rd.Inv → rd2.Inv) ∧
    (∀ (rd : RangeDecoder) (logp : Nat), rd.Inv → (decodeLogp rd logp).2.Inv) ∧
    (∀ (rd : RangeDecoder) (n k : Nat) (rd2 : RangeDecoder),
      decodeUniform rd n = some (k, rd2) → rd.Inv → rd2.Inv) ∧
    (∀ (rd : RangeDecoder) (s d : Nat) (v : Int) (rd2 : RangeDecoder),
      decodeLaplace rd s d = some (v, rd2) → rd.Inv → rd2.Inv) := by
  refine ⟨?_, inv_preserved_normalize, ?_, ?_, ?_, ?_⟩
  · intro buf
    apply normalize_inv
    · show (1 : Nat) ≤ 128; omega
    · show 127 - getBitsBE buf 0 7 < 128; omega
    · show (128 : Nat) ≤ CODE_TOP; rw [CODE_TOP_eq]; omega
  · exact fun rd icdf k rd2 h hI => decodeIcdf_inv rd icdf k rd2 h hI
  · exact fun rd logp hI => decodeLogp_inv rd logp hI
  · exact fun rd n k rd2 h hI => decodeUniform_inv rd n k rd2 h hI
  · exact fun rd s d v rd2 h hI => decodeLaplace_inv rd s d v rd2 h hI

/-- Witness for C1: the invariant holds concretely after `new` and after a
`decode_logp` on a one-byte packet. -/
theorem rangeDecoder_invariant_witness :
    (rangeDecoderNew [42]).Inv ∧ (decodeLogp (rangeDecoderNew [42]) 1).2.Inv :=
  ⟨rangeDecoder_invariant.1 [42],
   rangeDecoder_invariant.2.2.2.1 (rangeDecoderNew [42]) 1 (by decide)⟩

/-- C2 counterexample: `RangeDecoder::new` initialises `total` to
`SYM_BITS + 1 = 9`, not 8 as the claim states. -/
theorem rangeDecoderInit_total_is_nine :
    (rangeDecoderInit [0]).total = 9 ∧ ¬ (rangeDecoderInit [0]).total = 8 := by
  decide

/-- C2 (amended: initial `total` is 9, not 8): `new` on a non-empty buffer
builds the state `value = 127 - (top 7 bits of byte 0)`, `range = 128`,
`total = 9` and then renormalises; renormalisation adds 8 to `total` per
8-bit read, and from `range = 128` exactly three reads happen, leaving
`total = 33` and `range = CODE_TOP`. -/
theorem rangeDecoderNew_spec (buf : List Nat) (_hne : buf ≠ []) :
    rangeDecoderNew buf = normalize (rangeDecoderInit buf) ∧
    (rangeDecoderInit buf).value = 127 - getBitsBE buf 0 7 ∧
    (rangeDecoderInit buf).range = 128 ∧
    (rangeDecoderInit buf).total = 9 ∧
    (rangeDecoderNew buf).total = 33 ∧
    (rangeDecoderNew buf).range = CODE_TOP := by
  obtain ⟨ht, hr⟩ := normalize_from_128 (rangeDecoderInit buf) rfl
  exact ⟨rfl, rfl, rfl, rfl, ht, hr⟩

/-- Witness for C2 at the one-byte buffer `[42]`. -/
theorem rangeDecoderNew_spec_witness :
    (rangeDecoderNew [42]).total = 33 :=
  (rangeDecoderNew_spec [42] (by decide)).2.2.2.2.1

/-- C6 counterexample: `decode_uniform(257)` can return `257`, which is not
below `n = 257` — the split case does not clamp the recombined value (the
reference implementation clamps and flags an error here; this code does
not). -/
theorem decodeUniform_reaches_n :
    (decodeUniform (rangeDecoderNew [255, 255, 255, 255, 1]) 257).map
      Prod.fst = some 257 ∧ ¬ (257 < 257) := by
  decide

/-- C6 (amended): for `n ≥ 2` and a state satisfying the invariant,
`decode_uniform(n)` succeeds; when `ilog(n-1) ≤ 8` it decodes one
arithmetic symbol and the result is below `n`; when `ilog(n-1) > 8` it
decodes the top bits arithmetically over `((n-1) >> (bits-8)) + 1` values
and fills `bits-8` low bits from the raw-bits reader — the combined result
is below `(((n-1) >> (bits-8)) + 1) << (bits-8)`, which can reach or
exceed `n`. -/
theorem decodeUniform_spec (rd : RangeDecoder) (n : Nat) (hInv : rd.Inv)
    (hn : 2 ≤ n) :
    ∃ res rd2, decodeUniform rd n = some (res, rd2) ∧ rd2.Inv ∧
      (ilog (n - 1) ≤ UNI_BITS → res < n) ∧
      (UNI_BITS < ilog (n - 1) →
        res < ((n - 1) >>> (ilog (n - 1) - UNI_BITS) + 1) <<<
          (ilog (n - 1) - UNI_BITS)) :=
  decodeUniform_some_core rd n hInv hn

/-- Witness for C6 at `n = 3` on a concrete packet. -/
theorem decodeUniform_spec_witness :
    ∃ res rd2, decodeUniform (rangeDecoderNew [42]) 3 = some (res, rd2) ∧
      rd2.Inv ∧
      (ilog (3 - 1) ≤ UNI_BITS → res < 3) ∧
      (UNI_BITS < ilog (3 - 1) →
        res < ((3 - 1) >>> (ilog (3 - 1) - UNI_BITS) + 1) <<<
          (ilog (3 - 1) - UNI_BITS)) :=
  decodeUniform_spec (rangeDecoderNew [42]) 3 (by decide) (by decide)

/-- C7 counterexample: on the one-byte packet `[0xFF]` the arithmetic
cursor has consumed the whole buffer already during `new` (bit position 31
of 8 available bits), so the two cursors have met, yet `rawbits(8)`
returns the actual byte `255` (not zero) and `available()` returns 7 (not
0): the raw-bits reader never consults the arithmetic cursor. -/
theorem rawbits_after_cursors_met :
    (rangeDecoderNew [255]).sizeInBits ≤ (rangeDecoderNew [255]).bitpos ∧
    (rangeDecoderNew [255]).revpos = 0 ∧
    (rawbits (rangeDecoderNew [255]) 8).1 = 255 ∧
    (rangeDecoderNew [255]).available = 7 ∧
    ¬ ((rawbits (rangeDecoderNew [255]) 8).1 = 0 ∧
       (rangeDecoderNew [255]).available = 0) := by
  decide

/-- C7 (amended): the raw-bits reader is independent of the arithmetic
cursor; `rawbits(n)` returns zero once its own tail cursor has consumed
the whole buffer (`revpos ≥ size_in_bits`), not when the two cursors
meet. -/
theorem rawbits_zero_after_end (rd : RangeDecoder) (n : Nat)
    (h : rd.sizeInBits ≤ rd.revpos) : (rawbits rd n).1 = 0 := by
  show getBitsRev rd.buf rd.revpos n = 0
  have hdiv : ∀ j : Nat, ¬ (rd.revpos + j) / 8 < rd.buf.length := by
    intro j
    have h8 : 8 * rd.buf.length ≤ rd.revpos := h
    have : rd.buf.length ≤ (rd.revpos + j) / 8 := by
      rw [Nat.le_div_iff_mul_le (by norm_num)]
      omega
    omega
  induction n with
  | zero => rfl
  | succ n ih =>
    show getBitsRev rd.buf rd.revpos n + rawBitLE rd.buf (rd.revpos + n) <<< n = 0
    rw [ih]
    unfold rawBitLE
    rw [if_neg (hdiv n), Nat.zero_shiftLeft]

/-- Witness for C7 on a concrete exhausted reader. -/
theorem rawbits_zero_after_end_witness :
    (rawbits { buf := [7], bitpos := 0, revpos := 8, value := 0,
               range := 128, total := 9 } 5).1 = 0 :=
  rawbits_zero_after_end _ 5 (by decide)

/-- C10 counterexample: for an ICDF context that is strictly increasing
with `dist.last() = total ≥ 1` and a state with `value < range` and
`range > CODE_BOT`, `decode_icdf` can still panic: with
`total = 2^24 > range`, `scale = range / total = 0` and the division
`value / scale` panics (modelled as `none`). -/
theorem decodeIcdf_panics_on_large_total :
    (0 : Nat) < 8388609 ∧ CODE_BOT < 8388609 ∧
    List.Chain' (· < ·) [16777216] ∧
    ([16777216] : List Nat).getLast? = some 16777216 ∧ (1 : Nat) ≤ 16777216 ∧
    decodeIcdf { buf := [], bitpos := 0, revpos := 0, value := 0,
                 range := 8388609, total := 0 }
      ⟨16777216, [16777216]⟩ = none := by
  refine ⟨by decide, by decide, List.chain'_singleton 16777216, by decide,
    by decide, by decide⟩

/-- C10 (amended with the additional bound `total ≤ CODE_BOT`, forced by
the counterexample): for every strictly increasing `dist` with
`dist.last() = total`, `1 ≤ total ≤ CODE_BOT`, and every state with
`value < range` and `CODE_BOT < range`, `decode_icdf` does not panic: the
scale is nonzero, the symbol is below `dist.last()`, the linear search
finds an index below `dist.len()`, and no subtraction in `update`
underflows. -/
theorem decodeIcdf_no_panic (rd : RangeDecoder) (total : Nat)
    (dist : List Nat) (hchain : List.Chain' (· < ·) dist)
    (hlast : dist.getLast? = some total) (h1 : 1 ≤ total)
    (h2 : total ≤ CODE_BOT) (hbot : CODE_BOT < rd.range)
    (hvr : rd.value < rd.range) :
    ∃ k rd2, decodeIcdf rd ⟨total, dist⟩ = some (k, rd2) ∧
      k < dist.length := by
  have hmem : total ∈ dist := List.mem_of_getLast?_eq_some hlast
  have hub : ∀ x ∈ dist, x ≤ total := chain_getLast_max dist total hchain hlast
  exact decodeIcdf_isSome_core rd total dist hbot hvr h1 h2 hmem hub

/-- Witness for C10 on the `TAPSET` table `{4, [2,3,4]}`. -/
theorem decodeIcdf_no_panic_witness :
    ∃ k rd2, decodeIcdf (rangeDecoderNew [42]) ⟨4, [2, 3, 4]⟩ =
      some (k, rd2) ∧ k < ([2, 3, 4] : List Nat).length :=
  decodeIcdf_no_panic (rangeDecoderNew [42]) 4 [2, 3, 4]
    (by norm_num [List.chain'_cons, List.chain'_singleton])
    (by decide) (by decide) (by decide) (by decide) (by decide)

/-! ## SILK claim support lemmas -/

/-- `decodeIcdf_some_inv` restated for a whole `ICDFContext`. -/
theorem decodeIcdf_ctx_some_inv (rd : RangeDecoder) (ctx : ICDFContext)
    (hInv : rd.Inv) (h1 : 1 ≤ ctx.total) (h2 : ctx.total ≤ CODE_BOT)
    (hmem : ctx.total ∈ ctx.dist) (hub : ∀ x ∈ ctx.dist, x ≤ ctx.total) :
    ∃ k rd2, decodeIcdf rd ctx = some (k, rd2) ∧ rd2.Inv := by
  obtain ⟨k, rd2, hk, _, hi⟩ :=
    decodeIcdf_some_inv rd ctx.total ctx.dist hInv h1 h2 hmem hub
  exact ⟨k, rd2, hk, hi⟩

/-- Every `PULSE_COUNT` table has total 256, contains 256, and all its
entries are at most 256. -/
theorem pulse_count_tables_wf :
    ∀ ctx ∈ PULSE_COUNT, ctx.total = 256 ∧ 256 ∈ ctx.dist ∧
      ∀ x ∈ ctx.dist, x ≤ 256 := by
  decide

/-- The pulse-count overflow chain always terminates without error within
its fuel, with `lsb ≤ 10`, preserving the invariant. -/
theorem pulseCountChain_some :
    ∀ (fuel : Nat), ∀ (l : Nat) (rd : RangeDecoder) (p : Nat),
      rd.Inv → l ≤ 9 → 10 ≤ fuel + l →
      ∃ p2 l2 rd2, pulseCountChain fuel rd p l = some (p2, l2, rd2) ∧
        l2 ≤ 10 ∧ rd2.Inv := by
  intro fuel
  induction fuel with
  | zero => intro l rd p _ hl hf; omega
  | succ fuel ih =>
    intro l rd p hInv hl hf
    by_cases hp : p = 17
    · by_cases hl10 : l + 1 ≠ 10
      · obtain ⟨k, rd1, hk, hinv1⟩ := decodeIcdf_ctx_some_inv rd
          (PULSE_COUNT.getD 9 ⟨0, []⟩) hInv (by decide) (by decide)
          (by decide) (by decide)
        obtain ⟨p2, l2, rd2, hrec, hl2, hinv2⟩ :=
          ih (l + 1) rd1 k hinv1 (by omega) (by omega)
        refine ⟨p2, l2, rd2, ?_, hl2, hinv2⟩
        simp only [pulseCountChain, if_pos hp, if_pos hl10, hk,
          Option.bind_eq_bind, Option.some_bind]
        exact hrec
      · obtain ⟨k, rd1, hk, hinv1⟩ := decodeIcdf_ctx_some_inv rd
          (PULSE_COUNT.getD 10 ⟨0, []⟩) hInv (by decide) (by decide)
          (by decide) (by decide)
        refine ⟨k, 10, rd1, ?_, by omega, hinv1⟩
        simp only [pulseCountChain, if_pos hp, if_neg hl10, hk,
          Option.bind_eq_bind, Option.some_bind]
    · refine ⟨p, l, rd, ?_, by omega, hInv⟩
      simp only [pulseCountChain, if_neg hp]

/-- `silkPulseCount` never fails for a valid rate level and an invariant
state. -/
theorem silkPulseCount_some (rd : RangeDecoder) (ratelevel : Nat)
    (hInv : rd.Inv) (hr : ratelevel < 11) :
    ∃ p l rd2, silkPulseCount rd ratelevel = some (p, l, rd2) ∧
      l ≤ 10 ∧ rd2.Inv := by
  have hlen : ratelevel < PULSE_COUNT.length := by
    simpa [PULSE_COUNT] using hr
  have hget : PULSE_COUNT[ratelevel]? = some PULSE_COUNT[ratelevel] :=
    List.getElem?_eq_getElem hlen
  have hmem : PULSE_COUNT[ratelevel] ∈ PULSE_COUNT := List.getElem_mem hlen
  obtain ⟨htot, hin, hub⟩ := pulse_count_tables_wf _ hmem
  obtain ⟨k, rd1, hk, hinv1⟩ := decodeIcdf_ctx_some_inv rd
    PULSE_COUNT[ratelevel] hInv (by omega) (by rw [htot]; decide)
    (htot ▸ hin) (fun x hx => htot ▸ hub x hx)
  by_cases hk17 : k = 17
  · obtain ⟨p2, l2, rd2, hrec, hl2, hinv2⟩ :=
      pulseCountChain_some 10 0 rd1 k hinv1 (by omega) (by omega)
    refine ⟨p2, l2, rd2, ?_, hl2, hinv2⟩
    simp only [silkPulseCount, hget, Option.bind_eq_bind, Option.some_bind,
      hk, if_pos hk17]
    exact hrec
  · refine ⟨k, 0, rd1, ?_, by omega, hinv1⟩
    simp only [silkPulseCount, hget, Option.bind_eq_bind, Option.some_bind,
      hk, if_neg hk17]

/-! ## List indexing helpers -/

theorem getD_append_left {α : Type} (d : α) (l1 l2 : List α) (n : Nat)
    (h : n < l1.length) : (l1 ++ l2).getD n d = l1.getD n d := by
  simp [List.getD_eq_getElem?_getD, List.getElem?_append_left h]

theorem getD_append_right {α : Type} (d : α) (l1 l2 : List α) (n : Nat)
    (h : l1.length ≤ n) : (l1 ++ l2).getD n d = l2.getD (n - l1.length) d := by
  simp [List.getD_eq_getElem?_getD, List.getElem?_append_right h]

theorem getD_drop {α : Type} (d : α) (l : List α) (m n : Nat) :
    (l.drop m).getD n d = l.getD (m + n) d := by
  simp [List.getD_eq_getElem?_getD, List.getElem?_drop]

theorem getD_take {α : Type} (d : α) (l : List α) (m n : Nat) (h : n < m) :
    (l.take m).getD n d = l.getD n d := by
  simp [List.getD_eq_getElem?_getD, List.getElem?_take, h]

theorem zipWith3_getD {α : Type} (f : Int → Int → Int → α) (d : α) :
    ∀ (a b c : List Int) (i : Nat), i < (List.zipWith3 f a b c).length →
      (List.zipWith3 f a b c).getD i d =
        f (a.getD i 0) (b.getD i 0) (c.getD i 0) := by
  intro a
  induction a with
  | nil => intro b c i h; simp [List.zipWith3] at h
  | cons x xs ih =>
    intro b c i h
    cases b with
    | nil => simp [List.zipWith3] at h
    | cons y ys =>
      cases c with
      | nil => simp [List.zipWith3] at h
      | cons z zs =>
        cases i with
        | zero => rfl
        | succ i =>
          have h2 : i < (List.zipWith3 f xs ys zs).length := by
            simpa [List.zipWith3] using h
          simpa [List.zipWith3, List.getD_cons_succ] using ih ys zs i h2

/-! ## Claim theorems: SILK -/

/-- C4 counterexample: a set LBRR flag fails the packet with
`Error::Unsupported("LBRR frames")` (src/silk.rs line 2720), not with
`InvalidData` as the claim states; and the pulse-count overflow chain never
produces an error at all (see the amended theorem). -/
theorem silk_lbrr_error_is_unsupported :
    silkDecodeFlags (rangeDecoderNew [255, 255, 255, 255]) 1 false =
      Except.error (Error.unsupported "LBRR frames") ∧
    (Except.error (Error.unsupported "LBRR frames") :
      Except Error ((List Bool × List Bool) × RangeDecoder)) ≠
      Except.error Error.invalidData := by
  constructor
  · rfl
  · intro h
    injection h with h2
    exact Error.noConfusion h2

/-- C4 (amended): a set LBRR flag fails the whole packet with
`Unsupported("LBRR frames")` (not `InvalidData`); and a pulse-count
overflow chain is not an error at all — the draw loop runs at most 9 extra
draws, falls back to the `PULSE_COUNT[10]` table when the chain saturates,
and always returns a pulse count with `lsb ≤ 10`. -/
theorem silk_error_handling :
    (∀ (rd : RangeDecoder) (frames : Nat),
      (decodeLogp (decodeLogpFlags rd frames).2 1).1 = true →
      silkLpFlags rd frames =
        Except.error (Error.unsupported "LBRR frames")) ∧
    (∀ (rd : RangeDecoder) (ratelevel : Nat), rd.Inv → ratelevel < 11 →
      ∃ p l rd2, silkPulseCount rd ratelevel = some (p, l, rd2) ∧
        l ≤ 10 ∧ rd2.Inv) := by
  constructor
  · intro rd frames h
    simp only [silkLpFlags]
    rw [if_pos h]
  · exact fun rd rl hI hr => silkPulseCount_some rd rl hI hr

/-- Witness for C4: pulse-count decode on a concrete packet. -/
theorem silk_error_handling_witness :
    ∃ p l rd2, silkPulseCount (rangeDecoderNew [42]) 0 = some (p, l, rd2) ∧
      l ≤ 10 ∧ rd2.Inv :=
  silk_error_handling.2 (rangeDecoderNew [42]) 0 (by decide) (by decide)

/-- `nlsf.max(0).min(1 << 15) as i16` is the clamped value everywhere
except at the upper bound, where `32768 as i16 = -32768`. -/
theorem wrapI16_range (C : Int) (h0 : 0 ≤ C) (h1 : C ≤ 32768) :
    (C = 32768 ∧ wrapI16 C = -32768) ∨
    (0 ≤ wrapI16 C ∧ wrapI16 C ≤ 32767 ∧ wrapI16 C = C) := by
  simp only [wrapI16]
  omega

/-- C5 counterexample: the source clamps the recomposed NLSF to
`[0, 32768]` (`.max(0).min(1 << 15)`) and then narrows with `as i16`, so
at the upper boundary it stores `-32768`, not a value of `[0, 32767]` as
the claim states: at `res = 100, codebook = 255, weight = 2048` the
recomposed value is 33440 and the source stores `-32768` while the claimed
formula yields 32767. -/
theorem nlsf_clamp_differs_from_claim :
    nlsfStep2Elem 100 255 2048 = some (-32768) ∧
    nlsfStep2ElemSpec 100 255 2048 = 32767 ∧
    nlsfStep2Elem 100 255 2048 ≠ some (nlsfStep2ElemSpec 100 255 2048) := by
  decide

/-- C5 (amended: the clamp is `[0, 32768]` followed by an `as i16`
narrowing cast): with a nonzero weight every NLSF coefficient is
`clamp((codebook[i] << 7) + ((res[i] << 14) / weight[i]), 0, 32768) as i16`
with Rust's truncating `i32` division (a zero weight is a division-by-zero
panic), and the stored `i16` is either the wrapped boundary `-32768`
(exactly when the clamp saturates at 32768) or lies in `[0, 32767]`. -/
theorem recomposeNlsfs_spec (residuals codebooks weights : List Int)
    (i : Nat) (hi : i < (recomposeNlsfs residuals codebooks weights).length)
    (hw : weights.getD i 0 ≠ 0) :
    (recomposeNlsfs residuals codebooks weights).getD i none =
      some (wrapI16 (min (max (codebooks.getD i 0 * 128 +
        Int.tdiv (residuals.getD i 0 * 16384) (weights.getD i 0)) 0) 32768)) ∧
    ∀ v, (recomposeNlsfs residuals codebooks weights).getD i none = some v →
      v = -32768 ∨ (0 ≤ v ∧ v ≤ 32767) := by
  have hi2 : i < (List.zipWith3 nlsfStep2Elem residuals codebooks weights).length := hi
  have heq := zipWith3_getD nlsfStep2Elem none residuals codebooks weights i hi2
  simp only [recomposeNlsfs]
  rw [heq]
  simp only [nlsfStep2Elem, if_neg hw]
  refine ⟨by trivial, ?_⟩
  intro v hv
  have hveq := Option.some.inj hv
  rcases wrapI16_range
      (min (max (codebooks.getD i 0 * 128 +
        Int.tdiv (residuals.getD i 0 * 16384) (weights.getD i 0)) 0) 32768)
      (le_min (le_max_right _ 0) (by norm_num)) (min_le_right _ _) with
    hcase | hcase
  · exact Or.inl (hveq ▸ hcase.2)
  · exact Or.inr ⟨hveq ▸ hcase.1, hveq ▸ hcase.2.1⟩

/-- Witness for C5 at a concrete coefficient triple. -/
theorem recomposeNlsfs_spec_witness :
    (recomposeNlsfs [5] [100] [2000]).getD 0 none =
      some (wrapI16 (min (max (([100] : List Int).getD 0 0 * 128 +
        Int.tdiv (([5] : List Int).getD 0 0 * 16384)
          (([2000] : List Int).getD 0 0)) 0) 32768)) ∧
    ∀ v, (recomposeNlsfs [5] [100] [2000]).getD 0 none = some v →
      v = -32768 ∨ (0 ≤ v ∧ v ≤ 32767) :=
  recomposeNlsfs_spec [5] [100] [2000] 0 (by decide) (by decide)

/-- C8 counterexample: after a parse whose synthesis writes samples that
differ from the stale history, entry `LPC_HISTORY - 1 = 321` of the slid
buffer is the newly synthesised sample (here 1), not entry
`321 + f_size = 401` of the before-parse buffer (here 0): the claimed
equality fails on the last `f_size` entries of the window. -/
theorem silkParse_history_claim_fails :
    (silkParseOutputEffect (List.replicate 644 (0 : Int)) 80
      (List.replicate 80 (1 : Int))).getD 321 0 = 1 ∧
    (List.replicate 644 (0 : Int)).getD (321 + 80) 0 = 0 ∧
    ¬ ((silkParseOutputEffect (List.replicate 644 (0 : Int)) 80
        (List.replicate 80 (1 : Int))).getD 321 0 =
       (List.replicate 644 (0 : Int)).getD (321 + 80) 0) := by
  decide

/-- C8 (amended): after a successful `SilkFrame::parse` of `f_size`
samples, the first `LPC_HISTORY - f_size` entries of `output` equal the
before-parse entries at offsets `f_size ..`, and the remaining `f_size`
entries of the first window are the newly synthesised samples; the slide
is the only change to the first half (identically for `lpc_history`). -/
theorem silkParseOutputEffect_spec {α : Type} (d : α) (out synth : List α)
    (fsize : Nat) (hout : out.length = 2 * LPC_HISTORY)
    (hsyn : synth.length = fsize) (hf : fsize ≤ LPC_HISTORY) :
    (∀ i, i < LPC_HISTORY - fsize →
      (silkParseOutputEffect out fsize synth).getD i d =
        out.getD (i + fsize) d) ∧
    (∀ i, LPC_HISTORY - fsize ≤ i → i < LPC_HISTORY →
      (silkParseOutputEffect out fsize synth).getD i d =
        synth.getD (i - (LPC_HISTORY - fsize)) d) := by
  have hLPC : LPC_HISTORY = 322 := rfl
  have htklen : (out.take LPC_HISTORY).length = 322 := by
    rw [List.length_take]
    omega
  have hWlen : (writeAt out LPC_HISTORY synth).length = 644 := by
    simp only [writeAt, List.length_append, List.length_drop, htklen, hsyn]
    omega
  have hlen12 : (out.take LPC_HISTORY ++ synth).length = 322 + fsize := by
    rw [List.length_append, htklen, hsyn]
  have hWget : ∀ j, j < 644 → (writeAt out LPC_HISTORY synth).getD j d =
      (if j < 322 then out.getD j d
       else if j < 322 + fsize then synth.getD (j - 322) d
       else out.getD j d) := by
    intro j hj
    simp only [writeAt]
    by_cases hj1 : j < 322
    · rw [getD_append_left d _ _ j (by rw [hlen12]; omega)]
      rw [getD_append_left d _ _ j (by rw [htklen]; omega)]
      rw [if_pos hj1]
      exact getD_take d out LPC_HISTORY j (by rw [hLPC]; omega)
    · by_cases hj2 : j < 322 + fsize
      · rw [getD_append_left d _ _ j (by rw [hlen12]; omega)]
        rw [getD_append_right d _ _ j (by rw [htklen]; omega)]
        rw [htklen, if_neg hj1, if_pos hj2]
      · rw [getD_append_right d _ _ j (by rw [hlen12]; omega)]
        rw [hlen12, getD_drop]
        rw [if_neg hj1, if_neg hj2]
        congr 1
        show LPC_HISTORY + synth.length + (j - (322 + fsize)) = j
        rw [hsyn, hLPC]
        omega
  have hslide : ∀ i, i < 322 →
      (silkParseOutputEffect out fsize synth).getD i d =
        (writeAt out LPC_HISTORY synth).getD (fsize + i) d := by
    intro i hi
    simp only [silkParseOutputEffect, silkHistorySlide]
    rw [getD_append_left d _ _ i (by
      rw [List.length_take, List.length_drop, hWlen, hLPC]
      omega)]
    rw [getD_take d _ LPC_HISTORY i (by omega), getD_drop]
  constructor
  · intro i hi
    rw [hslide i (by omega), hWget (fsize + i) (by omega)]
    rw [if_pos (by omega : fsize + i < 322)]
    congr 1
    omega
  · intro i hi1 hi2
    rw [hslide i (by omega), hWget (fsize + i) (by omega)]
    rw [if_neg (by omega : ¬ fsize + i < 322),
      if_pos (by omega : fsize + i < 322 + fsize)]
    congr 1
    omega

/-- Witness for C8 on concrete buffers (`f_size = 80`). -/
theorem silkParseOutputEffect_spec_witness :
    (silkParseOutputEffect (List.replicate 644 (0 : Int)) 80
      (List.replicate 80 (1 : Int))).getD 5 0 =
      (List.replicate 644 (0 : Int)).getD (5 + 80) 0 :=
  (silkParseOutputEffect_spec 0 (List.replicate 644 (0 : Int))
    (List.replicate 80 (1 : Int)) 80 (by decide) (by decide) (by decide)).1
    5 (by decide)

/-! ## Claim theorems: CELT `cwrsi` -/

/-- C3 (code bug): `cwrsi` should fill `y` with `Σ|y| = k` for every index
below `V(n,k)`, but for `(n, k, idx) = (3, 1, 5)` with `idx < V(3,1) = 6`
the `k < n` branch picks the sign from `p` instead of `q` (the reference
decoder tests `p <= i && i < q` and subtracts `q` for the sign; this code
tests `i > p` and subtracts `p`), so the `u32` subtraction `k0 - k` in
`update` underflows and the decode panics (`none`).  The spec's concrete
vector `(8, 22, 68441748)` avoids the boundary and decodes correctly. -/
theorem cwrsi_code_bug :
    pvqV 3 1 = some 6 ∧
    cwrsi 3 1 5 = none ∧
    cwrsi 8 22 68441748 = some ([0, 0, -1, -1, 4, 8, -4, 4], 114) := by
  decide

end Opus
